import Mathlib

/-!
# make-regkey: registration key encoder

A shallow embedding of `make-regkey.c` (the scrambler, the name-check
generator, the checksum engine and the key codec in `main`) together with
the properties claimed for it.

Conventions of the embedding:

* a byte in memory (`unsigned char`, `char`) is a `Nat` below 256; a buffer
  is a `List Nat`; `buf.getD i 0` reads `buf[i]` and `buf.set i v` writes it;
* `int` is 32-bit two's complement (`I32`), every arithmetic result is
  wrapped to 32 bits, `/` truncates toward zero, `>>` is arithmetic;
* plain `char` is signed (the x86 ABI the program was written for);
* `size_t` is 64-bit unsigned and integer objects are laid out little-endian;
* a counted `for` loop is a structural recursion on the number of remaining
  iterations, so it always terminates.
-/

namespace MakeRegkey

/-! ## 32-bit `int` -/

/-- Reduce an integer to the value of its low 32 bits read as two's complement. -/
def wrap32 (x : Int) : Int := (x + 2147483648) % 4294967296 - 2147483648

/-- The 32-bit pattern (as an unsigned number) of an integer. -/
def toU32 (x : Int) : Nat := (x % 4294967296).toNat

/-- The value of a 32-bit pattern read as a two's-complement `int`. -/
def ofU32 (n : Nat) : Int :=
  if n % 4294967296 < 2147483648 then ((n % 4294967296 : Nat) : Int)
  else ((n % 4294967296 : Nat) : Int) - 4294967296

/-- A C `int`. -/
structure I32 where
  val : Int
deriving DecidableEq, Repr

namespace I32

instance (n : Nat) : OfNat I32 n := ⟨⟨wrap32 (n : Int)⟩⟩
instance : Neg I32 := ⟨fun a => ⟨wrap32 (-a.val)⟩⟩
instance : Add I32 := ⟨fun a b => ⟨wrap32 (a.val + b.val)⟩⟩
instance : Sub I32 := ⟨fun a b => ⟨wrap32 (a.val - b.val)⟩⟩
instance : Mul I32 := ⟨fun a b => ⟨wrap32 (a.val * b.val)⟩⟩
instance : AndOp I32 := ⟨fun a b => ⟨ofU32 (toU32 a.val &&& toU32 b.val)⟩⟩
instance : OrOp I32 := ⟨fun a b => ⟨ofU32 (toU32 a.val ||| toU32 b.val)⟩⟩
instance : Xor I32 := ⟨fun a b => ⟨ofU32 (toU32 a.val ^^^ toU32 b.val)⟩⟩
instance : Complement I32 := ⟨fun a => ⟨ofU32 (4294967295 - toU32 a.val)⟩⟩
/-- Left shift keeps the low 32 bits of the shifted pattern. -/
instance : HShiftLeft I32 Nat I32 := ⟨fun a k => ⟨wrap32 (a.val * 2 ^ k)⟩⟩
/-- Right shift of an `int` is arithmetic (sign-propagating). -/
instance : HShiftRight I32 Nat I32 := ⟨fun a k => ⟨a.val >>> k⟩⟩

/-- Integer promotion of an `unsigned char`. -/
def ofUChar (b : Nat) : I32 := ⟨((b % 256 : Nat) : Int)⟩

/-- Integer promotion of a (signed) `char` stored as the byte `b`. -/
def ofChar (b : Nat) : I32 :=
  ⟨if b % 256 < 128 then ((b % 256 : Nat) : Int) else ((b % 256 : Nat) : Int) - 256⟩

/-- Conversion of an `int` to `unsigned char`: the low 8 bits. -/
def toUChar (a : I32) : Nat := (a.val % 256).toNat

/-- Conversion of an `int` to `size_t` (64-bit unsigned). -/
def toSize (a : I32) : Nat := (a.val % 18446744073709551616).toNat

/-- A non-negative `int` used as a shift count. -/
def toCount (a : I32) : Nat := a.val.toNat

/-- C division `a / b`: the quotient is truncated toward zero; `none` is the hardware trap
raised for a zero divisor (and for `INT_MIN / -1`). -/
def div? (a b : I32) : Option I32 :=
  if b.val = 0 ∨ (a.val = -2147483648 ∧ b.val = -1) then none
  else some ⟨Int.tdiv a.val b.val⟩

end I32

/-! ## `size_t` -/

/-- Subtraction of `size_t` values, modulo 2^64. -/
def size_sub (a b : Nat) : Nat :=
  (a % 18446744073709551616 + (18446744073709551616 - b % 18446744073709551616))
    % 18446744073709551616

/-! ## Scrambler (`scramble`, lines 118-131) -/

/-- The operand XORed into `key[i]`: `-1 - i - (1 << (1 << (i & 31) & 7))`, evaluated in
`size_t` because `i` is a `size_t`; the two shifts are `int` shifts. -/
def scramble_mask (i : Nat) : Nat :=
  size_sub (size_sub (I32.toSize (-1)) i)
    (I32.toSize ((1 : I32) <<< I32.toCount (((1 : I32) <<< (i &&& 31)) &&& 7)))

/-- The inner loop `for (j = 0; j < 8; j++) { out <<= 1; out |= in & 1; in >>= 1; }` on the
pair `(in, out)` of `unsigned char`s; the first argument counts the remaining iterations. -/
def scramble_bits : Nat → Nat × Nat → Nat × Nat
  | 0, s => s
  | n + 1, (inb, out) =>
    let out := (out <<< 1) % 256
    let out := (out ||| (inb &&& 1)) % 256
    let inb := (inb >>> 1) % 256
    scramble_bits n (inb, out)

/-- One pass of the outer loop body for the byte `b = key[i]`. -/
def scramble_byte (b i : Nat) : Nat :=
  let inb := (b ^^^ scramble_mask i) % 256
  (scramble_bits 8 (inb, 0)).2

/-- The outer loop `for (i = ...; i < length; i++)` with `n` iterations left. -/
def scramble_loop : Nat → Nat → List Nat → List Nat
  | 0, _, key => key
  | n + 1, i, key => scramble_loop n (i + 1) (key.set i (scramble_byte (key.getD i 0) i))

/-- Scramble `key[0 .. length)` in place. -/
def scramble (key : List Nat) (length : Nat) : List Nat :=
  scramble_loop length 0 key

/-! ### The inverse described by the specification -/

/-- The specification's `reverse_bit_order_8`: bit `j` of the result is bit `7 - j` of the
argument. -/
def reverse_bit_order_8 (x : Nat) : Nat :=
  (List.range 8).foldl (fun acc j => acc + (x / 2 ^ (7 - j) % 2) * 2 ^ j) 0

/-- The specification's `mask(i) = -1 - i - (1 << ((1 << (i & 31)) & 7))` as an integer. -/
def spec_mask (i : Nat) : Int :=
  -1 - (i : Int) - 2 ^ ((2 ^ (i &&& 31)) &&& 7)

/-- The specification's inverse: `reverse_bit_order_8(s) XOR (mask(i) & 0xFF)`. -/
def descramble_byte (s i : Nat) : Nat :=
  reverse_bit_order_8 s ^^^ (spec_mask i % 256).toNat

/-! ## Name-check generator (`calc_name_check`, lines 133-149) -/

/-- Write the name-check trailer to `mem[trailer .. trailer + 8)` from the `char`s
`name[0 .. 5)`; each C statement is one step. `none` is a division trap. -/
def calc_name_check (mem : List Nat) (trailer : Nat) (name : List Nat) : Option (List Nat) := do
  let n := fun (j : Nat) => I32.ofChar (name.getD j 0)
  let t := fun (m : List Nat) (j : Nat) => I32.ofUChar (m.getD (trailer + j) 0)
  let mem := mem.set (trailer + 0)
    (I32.toUChar ((((n 0 ||| n 1) ^^^ ((n 2 ||| n 3) + n 4)) &&& 0xf) <<< (4 : Nat)))
  let mem := mem.set (trailer + 0)
    (I32.toUChar (t mem 0 ||| (((((n 0 ^^^ n 1) ^^^ n 2) ^^^ n 3) ^^^ n 4) &&& 0xf)))
  let q ← I32.div? (n 0 * n 1) ((n 2 - n 3) + 1)
  let mem := mem.set (trailer + 1) (I32.toUChar (((q - n 4) &&& 0xf) <<< (4 : Nat)))
  let q ← I32.div? (n 0 * n 1) ((n 2 - n 3) + 1)
  let mem := mem.set (trailer + 1) (I32.toUChar (t mem 1 ||| ((q * n 4) &&& 0xf)))
  let mem := mem.set (trailer + 2)
    (I32.toUChar (((((n 2 + n 3) * (n 0 - n 1)) ^^^ (~~~ (n 4))) &&& 0xf) <<< (4 : Nat)))
  let mem := mem.set (trailer + 2)
    (I32.toUChar (t mem 2 ||| ((((n 2 - n 3) * (n 0 + n 1)) ^^^ n 4) &&& 0xf)))
  let mem := mem.set (trailer + 3)
    (I32.toUChar (((((n 0 ^^^ n 1) + (n 2 ^^^ n 3)) ^^^ n 4) &&& 0xf) <<< (4 : Nat)))
  let mem := mem.set (trailer + 3)
    (I32.toUChar (t mem 3 ||| (((((n 0 + n 1) + n 2) - n 3) - n 4) &&& 0xf)))
  let mem := mem.set (trailer + 4) 0
  let mem := mem.set (trailer + 5) 0
  let mem := mem.set (trailer + 6) 0
  let mem := mem.set (trailer + 7) 0
  pure mem

/-! ### The formulas of the specification -/

/-- The specification's `(hi & 0xF) << 4 | (lo & 0xF)` on integers. -/
def spec_pack (hi lo : Int) : Int :=
  Int.lor (Int.land hi 0xF * 2 ^ 4) (Int.land lo 0xF)

/-- The specification's `b0`. -/
def spec_b0 (n0 n1 n2 n3 n4 : Int) : Int :=
  spec_pack (Int.xor (Int.lor n0 n1) (Int.lor n2 n3 + n4))
    (Int.xor (Int.xor (Int.xor (Int.xor n0 n1) n2) n3) n4)

/-- The specification's `b1`; `/` truncates toward zero. -/
def spec_b1 (n0 n1 n2 n3 n4 : Int) : Int :=
  spec_pack (Int.tdiv (n0 * n1) ((n2 - n3) + 1) - n4)
    (Int.tdiv (n0 * n1) ((n2 - n3) + 1) * n4)

/-- The formula of `b1` with flooring division instead, for comparison. -/
def floor_b1 (n0 n1 n2 n3 n4 : Int) : Int :=
  spec_pack (Int.fdiv (n0 * n1) ((n2 - n3) + 1) - n4)
    (Int.fdiv (n0 * n1) ((n2 - n3) + 1) * n4)

/-- The specification's `b2`. -/
def spec_b2 (n0 n1 n2 n3 n4 : Int) : Int :=
  spec_pack (Int.xor ((n2 + n3) * (n0 - n1)) (Int.lnot n4))
    (Int.xor ((n2 - n3) * (n0 + n1)) n4)

/-- The specification's `b3`. -/
def spec_b3 (n0 n1 n2 n3 n4 : Int) : Int :=
  spec_pack (Int.xor (Int.xor n0 n1 + Int.xor n2 n3) n4) (n0 + n1 + n2 - n3 - n4)

/-- A byte read as a signed 8-bit integer, -128..127. -/
def signed8 (b : Nat) : Int := if b < 128 then (b : Int) else (b : Int) - 256

/-! ## Checksum engine (`calc_checksum`, lines 151-159) -/

/-- A counted loop `for (i = i0; ...; i++) body` with `n` iterations left, at index `i`, on
the state `s` of the variables the body assigns. -/
def for_loop {σ : Type} (body : Nat → σ → σ) : Nat → Nat → σ → σ
  | 0, _, s => s
  | n + 1, i, s => for_loop body n (i + 1) (body i s)

/-- The body of the loop of `calc_checksum` on the byte `b = key[i]`: the two assignments
`checksum = key[i] * 0x11121 + (checksum << 3); checksum += checksum >> 26;`. -/
def checksum_step (checksum : I32) (b : Nat) : I32 :=
  let checksum := (I32.ofUChar b * 0x11121) + (checksum <<< (3 : Nat))
  checksum + (checksum >>> (26 : Nat))

/-- Checksum of `key[0 .. length)`: `checksum = 0`, then the loop over `i < length`. -/
def calc_checksum (key : List Nat) (length : Nat) : I32 :=
  for_loop (fun i checksum => checksum_step checksum (key.getD i 0)) length 0 0

/-- The specification's step: `t = wrap32(b * 0x11121 + (c << 3))`, then
`wrap32(t + (t >> 26))` with a sign-propagating shift (flooring division by 2^26). -/
def spec_checksum_step (c : Int) (b : Nat) : Int :=
  let t := wrap32 ((b : Int) * 0x11121 + c * 2 ^ 3)
  wrap32 (t + t / 2 ^ 26)

/-! ## Memory helpers -/

/-- Store the bytes `bs` at `mem[off ..]`, one assignment per byte. -/
def store_bytes : List Nat → Nat → List Nat → List Nat
  | mem, _, [] => mem
  | mem, off, b :: bs => store_bytes (mem.set off b) (off + 1) bs

/-- Model of `memcpy(dst + off, src, n)`. -/
def memcpy (dst : List Nat) (off : Nat) (src : List Nat) (n : Nat) : List Nat :=
  store_bytes dst off (src.take n)

/-- Model of `memset(dst + off, c, n)`. -/
def memset (dst : List Nat) (off : Nat) (c : Nat) (n : Nat) : List Nat :=
  store_bytes dst off (List.replicate n c)

/-- A C string is represented by its bytes before the terminating NUL. -/
def strlen (s : List Nat) : Nat := s.length

/-- Model of `strncpy(dst, src, n)`: at most `n` bytes of the string, then NUL padding up to
`n` bytes. -/
def strncpy (dst : List Nat) (src : List Nat) (n : Nat) : List Nat :=
  store_bytes dst 0 (src.take n ++ List.replicate (n - src.length) 0)

/-- The string stored in a buffer: the bytes before the first NUL (what `%s` prints). -/
def cstr (buf : List Nat) : List Nat := buf.takeWhile (fun b => b != 0)

/-- The four bytes of a 32-bit object, little-endian. -/
def le_bytes32 (v : Nat) : List Nat :=
  [v % 256, v / 256 % 256, v / 65536 % 256, v / 16777216 % 256]

/-- The 32-bit little-endian value stored in `mem[off .. off + 4)`. -/
def le_read32 (mem : List Nat) (off : Nat) : Nat :=
  mem.getD off 0 + 256 * mem.getD (off + 1) 0 + 65536 * mem.getD (off + 2) 0
    + 16777216 * mem.getD (off + 3) 0

/-! ## Key codec (`main`, lines 161-281) -/

/-- Max name length. -/
def MAXLEN : Nat := 108

/-- The ways `main` ends without a key. `DivideTrap` is a crash inside `calc_name_check`. -/
inductive Error where
  | NameTooLong
  | EmptyName
  | InvalidName
  | DivideTrap
deriving DecidableEq, Repr

/-- What a successful run computes: the values printed, plus the key buffer before (`raw`)
and after (`key`) the call of `scramble`. -/
structure Output where
  name : List Nat
  features : Nat
  checksum : I32
  key_len : Nat
  raw : List Nat
  key : List Nat
  out_key_text : List Nat
deriving DecidableEq, Repr

/-- Indeterminate initial contents of the locals that `main` does not initialise. -/
structure Uninit where
  name_len : Nat
  key : Nat → Nat
  out_key_text : Nat → Nat

/-- The loop `for (i = 0; i < 5 - name_len; i++) name[name_len + i] = 0x20` with `n`
iterations left. -/
def pad_loop (name_len : Nat) : Nat → Nat → List Nat → List Nat
  | 0, _, name => name
  | n + 1, i, name => pad_loop name_len n (i + 1) (name.set (name_len + i) 32)

/-- The padding step of `main` (lines 217-223): a name shorter than 5 chars gets spaces up
to 5 chars and a NUL at `name[5]`; the result is the buffer and the new `name_len`. -/
def pad_name (name : List Nat) (name_len : Nat) : List Nat × Nat :=
  if name_len < 5 then ((pad_loop name_len (5 - name_len) 0 name).set 5 0, 5)
  else (name, name_len)

/-- ASCII code of the lowercase hex digit `d`. -/
def hex_digit (d : Nat) : Nat := if d < 10 then 48 + d else 87 + d

/-- Model of `sprintf(out + off, "%02x", b)`: two digits and a NUL. -/
def sprintf_02x (out : List Nat) (off : Nat) (b : Nat) : List Nat :=
  store_bytes out off [hex_digit (b / 16 % 16), hex_digit (b % 16), 0]

/-- The loop `for (i = 0; i < key_len; i++) sprintf(out_key_text + i * 2, ...)` with `n`
iterations left. -/
def hex_loop : Nat → Nat → List Nat → List Nat → List Nat
  | 0, _, _, out => out
  | n + 1, i, key, out => hex_loop n (i + 1) key (sprintf_02x out (i * 2) (key.getD i 0))

/-- Model of `main` after option parsing: `features` is the value of the variable `features`
and `arg` is `argv[optind]` when `optind < argc`. -/
def main (u : Uninit) (features : Nat) (arg : Option (List Nat)) : Except Error Output := do
  let name := List.replicate (MAXLEN + 1) 0
  let (name, name_len) ← (match arg with
    | some s =>
      let name_len := strlen s
      if name_len > MAXLEN then Except.error Error.NameTooLong
      else Except.ok (strncpy (name.set MAXLEN 0) s MAXLEN, name_len)
    | none => Except.ok (name, u.name_len))
  if name.getD 0 0 = 0 then Except.error Error.EmptyName
  else
  let (name, name_len) := pad_name name name_len
  if (I32.ofChar (name.getD 2 0) - I32.ofChar (name.getD 3 0)) + 1 = 0 then
    Except.error Error.InvalidName
  else
  let key_len := 9 + name_len + 1 + 8
  let key := (List.range (9 + MAXLEN + 1 + 8)).map u.key
  let key := key.set 0 1
  let key := memcpy key 1 (le_bytes32 features) 4
  let key := memcpy key 9 name name_len
  let key := key.set (9 + name_len) 0
  match calc_name_check key (9 + name_len + 1) name with
  | none => Except.error Error.DivideTrap
  | some key =>
  let key := memset key 5 0 4
  let checksum := calc_checksum key key_len
  let key := memcpy key 5 (le_bytes32 (toU32 checksum.val)) 4
  let raw := key.take key_len
  let key := scramble key key_len
  let out_key_text := (List.range ((9 + MAXLEN + 1 + 8) * 2)).map u.out_key_text
  let out_key_text := hex_loop key_len 0 key out_key_text
  Except.ok
    { name := cstr name
      features := features
      checksum := checksum
      key_len := key_len
      raw := raw
      key := key.take key_len
      out_key_text := cstr out_key_text }

/-! ## Auxiliary definitions used by the proofs -/

/-- Range of a `k + 1`-bit two's-complement integer. -/
def InRange (k : Nat) (x : Int) : Prop := -(2 : Int) ^ k ≤ x ∧ x < (2 : Int) ^ k

/-- The `int` `a` holds the integer `x`, which fits in `k + 1` bits. -/
def Rep (k : Nat) (a : I32) (x : Int) : Prop := a.val = x ∧ InRange k x

/-- The byte left in an `unsigned char` `t` by the two statements
`t = (hi & 0xf) << 4; t |= lo & 0xf;`. -/
def pack_nibbles (hi lo : I32) : Nat :=
  I32.toUChar (I32.ofUChar (I32.toUChar ((hi &&& 0xf) <<< (4 : Nat))) ||| (lo &&& 0xf))

/-- The eight bytes `calc_name_check` leaves in the trailer, from the promoted name
characters and the quotient `q` of its division. -/
def check_bytes (n0 n1 n2 n3 n4 q : I32) : List Nat :=
  [ pack_nibbles ((n0 ||| n1) ^^^ ((n2 ||| n3) + n4)) ((((n0 ^^^ n1) ^^^ n2) ^^^ n3) ^^^ n4),
    pack_nibbles (q - n4) (q * n4),
    pack_nibbles (((n2 + n3) * (n0 - n1)) ^^^ (~~~ n4)) (((n2 - n3) * (n0 + n1)) ^^^ n4),
    pack_nibbles (((n0 ^^^ n1) + (n2 ^^^ n3)) ^^^ n4) ((((n0 + n1) + n2) - n3) - n4),
    0, 0, 0, 0 ]

/-! ## The codec as the specification describes it -/

/-- The name right-padded with ASCII spaces to at least five bytes (specification §3). -/
def padded_name (name : List Nat) : List Nat :=
  name ++ List.replicate (5 - name.length) 32

/-- The specification's guard `byte[2] - byte[3] + 1 == 0` on signed bytes. -/
def zero_divisor (p : List Nat) : Prop :=
  signed8 (p.getD 2 0) - signed8 (p.getD 3 0) + 1 = 0

instance (p : List Nat) : Decidable (zero_divisor p) := by
  unfold zero_divisor; infer_instance

/-- A name as `argv` can hold it: every byte is a non-NUL `char`. -/
def valid_name (name : List Nat) : Prop := ∀ b ∈ name, 0 < b ∧ b < 256

instance (name : List Nat) : Decidable (valid_name name) := by
  unfold valid_name; infer_instance

/-- The eight trailer bytes `calc_name_check` computes from the name buffer `p`
(empty if its division traps). -/
def trailer_bytes (p : List Nat) : List Nat :=
  match I32.div? (I32.ofChar (p.getD 0 0) * I32.ofChar (p.getD 1 0))
      ((I32.ofChar (p.getD 2 0) - I32.ofChar (p.getD 3 0)) + 1) with
  | some q => check_bytes (I32.ofChar (p.getD 0 0)) (I32.ofChar (p.getD 1 0))
      (I32.ofChar (p.getD 2 0)) (I32.ofChar (p.getD 3 0)) (I32.ofChar (p.getD 4 0)) q
  | none => []

/-- The RawKeyBuffer layout of the specification (§3): constant, FeatureMask, checksum
field, name, terminator, trailer (name check and reserved bytes). -/
def raw_layout (features : Nat) (field : List Nat) (p : List Nat) (trailer : List Nat) :
    List Nat :=
  [1] ++ (le_bytes32 features ++ (field ++ (p ++ ([0] ++ trailer))))

/-- Two lowercase hex digits per byte, high nibble first (specification §3 OutputHex). -/
def hex_text : List Nat → List Nat
  | [] => []
  | b :: bs => hex_digit (b / 16 % 16) :: hex_digit (b % 16) :: hex_text bs

/-- The result of the codec for the padded name `p`, in closed form. -/
def encode (features : Nat) (p : List Nat) : Output :=
  let raw0 := raw_layout features [0, 0, 0, 0] p (trailer_bytes p)
  let checksum := calc_checksum raw0 raw0.length
  let raw := raw_layout features (le_bytes32 (toU32 checksum.val)) p (trailer_bytes p)
  let key := scramble raw raw.length
  { name := p
    features := features
    checksum := checksum
    key_len := 9 + p.length + 1 + 8
    raw := raw
    key := key
    out_key_text := hex_text key }

/-- What the hex loop leaves in the part `out` of the text buffer that starts at the current
write position, after printing the bytes `bs`: two digits per byte, the NUL of the last
`sprintf` (if it fits), then the old contents. -/
def hex_fill : List Nat → List Nat → List Nat
  | [], out => out
  | b :: bs, out =>
    hex_digit (b / 16 % 16) :: hex_digit (b % 16) :: hex_fill bs ((out.drop 2).set 0 0)

/-- Sample indeterminate stack contents, for concrete runs. -/
def sample_uninit : Uninit :=
  { name_len := 3435973836
    key := fun i => (170 + 7 * i) % 256
    out_key_text := fun i => (85 + i) % 256 }

/-- The four Name-Check bytes `b0..b3` of the specification (§4.2) for the padded name `p`,
followed by the four reserved zero bytes. -/
def spec_trailer (p : List Nat) : List Nat :=
  [ (spec_b0 (signed8 (p.getD 0 0)) (signed8 (p.getD 1 0)) (signed8 (p.getD 2 0))
      (signed8 (p.getD 3 0)) (signed8 (p.getD 4 0))).toNat,
    (spec_b1 (signed8 (p.getD 0 0)) (signed8 (p.getD 1 0)) (signed8 (p.getD 2 0))
      (signed8 (p.getD 3 0)) (signed8 (p.getD 4 0))).toNat,
    (spec_b2 (signed8 (p.getD 0 0)) (signed8 (p.getD 1 0)) (signed8 (p.getD 2 0))
      (signed8 (p.getD 3 0)) (signed8 (p.getD 4 0))).toNat,
    (spec_b3 (signed8 (p.getD 0 0)) (signed8 (p.getD 1 0)) (signed8 (p.getD 2 0))
      (signed8 (p.getD 3 0)) (signed8 (p.getD 4 0))).toNat,
    0, 0, 0, 0 ]

/-- The specification's inverse of the Scrambler applied to the bytes at positions
`i, i + 1, ...`. -/
def descramble_from : Nat → List Nat → List Nat
  | _, [] => []
  | i, s :: ss => descramble_byte s i :: descramble_from (i + 1) ss

/-- The specification's inverse of the Scrambler on a whole key. -/
def descramble (key : List Nat) : List Nat := descramble_from 0 key

/-! ## Feature report (`show_features`, lines 31-116) -/

/-- Known features. -/
def FEATURE_FM_PROC : Nat := 0x00000001 ||| 0x00000004 ||| 0x00000008
/-- Advanced clipper. -/
def FEATURE_ADV_CLIPPER : Nat := 0x00000002
/-- Advanced RDS. -/
def FEATURE_ADVANCED_RDS : Nat := 0x00000010
/-- File polling. -/
def FEATURE_FILE_POLLING : Nat := 0x00000040
/-- Low latency monitoring. -/
def FEATURE_LOW_LAT_MON : Nat := 0x00000080
/-- Declipper; also enables nat dynamics. -/
def FEATURE_DECLIPPER : Nat := 0x00000800
/-- Declipper with a two hour limit; also enables nat dynamics. -/
def FEATURE_DECLIPPER_2H : Nat := 0x00001000
/-- Natural dynamics only. -/
def FEATURE_NAT_DYN_ONLY : Nat := 0x00004000
/-- Event FM processing. -/
def FEATURE_EVENT_FM_PROC : Nat := 0x00008000
/-- Composite clipper. -/
def FEATURE_COMP_CLIP : Nat := 0x00010000
/-- Composite clipper for event FM. -/
def FEATURE_COMP_CLIP_EVENT : Nat := 0x00020000
/-- Delossifier. -/
def FEATURE_DELOSSIFIER : Nat := 0x00040000
/-- The uMPX bit: disabled when FM and this are set. -/
def FEATURE_UMPX : Nat := 0x00080000
/-- AGC and auto EQ. -/
def FEATURE_AGC34_AEQ : Nat := 0x00200000
/-- Dynamic speeds. -/
def FEATURE_DYN_SPEEDS : Nat := 0x00400000
/-- BIMP. -/
def FEATURE_BIMP : Nat := 0x00800000
/-- The uMPX SFN GPS bit. -/
def FEATURE_UMPX_SFN_GPS : Nat := 0x01000000
/-- The uMPX+ bit: disabled when FM and this are set. -/
def FEATURE_UMPXP : Nat := 0x10000000
/-- Nielsen PPM watermarking. -/
def FEATURE_PPM_WTRMRKNG : Nat := 0x40000000
/-- ST-Enterprise. -/
def STE_PROC : Nat := 0x08000000

/-- The macro `SHOW_FEATURE(a, b)`: `if ((feat & a) == a) printf("\t* " b "\n");`. -/
def SHOW_FEATURE (feat a : Nat) (b : String) : List String :=
  if feat &&& a = a then ["\t* " ++ b ++ "\n"] else []

/-- The macro `SHOW_FEATURE_INVERSE(a, b, c)`:
`if (feat & a) printf((feat & b) == b ? "\t* " c " disabled\n" : "\t* " c "\n");`. -/
def SHOW_FEATURE_INVERSE (feat a b : Nat) (c : String) : List String :=
  if feat &&& a ≠ 0 then
    [if feat &&& b = b then "\t* " ++ c ++ " disabled\n" else "\t* " ++ c ++ "\n"]
  else []

/-- The macro `SHOW_FEATURE_ONLY(a, b, c)`:
`if (!(feat & a)) printf((feat & b) == b ? "\t* " c " only\n" : "\t* " c "\n");`. -/
def SHOW_FEATURE_ONLY (feat a b : Nat) (c : String) : List String :=
  if feat &&& a = 0 then
    [if feat &&& b = b then "\t* " ++ c ++ " only\n" else "\t* " ++ c ++ "\n"]
  else []

/-- The macro `SHOW_FEATURE_ALWAYS(a)`: `if (feat) printf("\t* " a "\n");`. -/
def SHOW_FEATURE_ALWAYS (feat : Nat) (a : String) : List String :=
  if feat ≠ 0 then ["\t* " ++ a ++ "\n"] else []

/-- The text of `printf("%08x", v)` for a 32-bit `v`. -/
def hex8 (v : Nat) : String :=
  String.mk ((List.range 8).map (fun j => Char.ofNat (hex_digit (v / 16 ^ (7 - j) % 16))))

/-- The texts `show_features` prints, one per `printf` call, in order. -/
def show_features (feat : Nat) : List String :=
  ["License: 0x" ++ hex8 feat ++ "\n"]
  ++ SHOW_FEATURE_ALWAYS feat "Dehummer"
  ++ SHOW_FEATURE feat FEATURE_FM_PROC "FM Processing"
  ++ SHOW_FEATURE feat FEATURE_ADV_CLIPPER "Advanced Clipper"
  ++ SHOW_FEATURE feat FEATURE_ADVANCED_RDS "Advanced RDS"
  ++ SHOW_FEATURE feat FEATURE_FILE_POLLING "File Polling"
  ++ SHOW_FEATURE feat FEATURE_LOW_LAT_MON "Low Latency Monitoring"
  ++ SHOW_FEATURE feat FEATURE_DECLIPPER "Declipper & Natural Dynamics"
  ++ SHOW_FEATURE feat FEATURE_DECLIPPER_2H "Declipper (2 hour limit)"
  ++ SHOW_FEATURE_ONLY feat FEATURE_DECLIPPER FEATURE_NAT_DYN_ONLY "Natural Dynamics"
  ++ SHOW_FEATURE feat FEATURE_EVENT_FM_PROC "Event FM (3 days)"
  ++ SHOW_FEATURE feat FEATURE_COMP_CLIP "Composite Clipper"
  ++ SHOW_FEATURE feat FEATURE_COMP_CLIP_EVENT "Composite Clipper (Event FM)"
  ++ SHOW_FEATURE feat FEATURE_DELOSSIFIER "Delossifier"
  ++ SHOW_FEATURE_INVERSE feat FEATURE_FM_PROC FEATURE_UMPX "uMPX"
  ++ SHOW_FEATURE feat FEATURE_AGC34_AEQ "3/4 AGC & Auto EQ"
  ++ SHOW_FEATURE feat FEATURE_DYN_SPEEDS "Dynamic Speeds"
  ++ SHOW_FEATURE feat FEATURE_BIMP "BIMP"
  ++ SHOW_FEATURE feat FEATURE_UMPX_SFN_GPS "uMPX SFN GPS"
  ++ SHOW_FEATURE_INVERSE feat FEATURE_FM_PROC FEATURE_UMPXP "uMPX+"
  ++ SHOW_FEATURE feat FEATURE_PPM_WTRMRKNG "Nielsen PPM watermarking"
  ++ SHOW_FEATURE feat STE_PROC "ST-Enterprise"

/-- The low nibble (bits 0..3) of an integer in two's complement. -/
def nib (x : Int) : Nat := (x % 16).toNat

/-- The value of a lowercase hex digit given by its ASCII code. -/
def hex_value (c : Nat) : Nat := if c < 58 then c - 48 else c - 87

/-- Hex decoding: two digits per byte, high nibble first. -/
def hex_decode : List Nat → List Nat
  | a :: b :: rest => (16 * hex_value a + hex_value b) :: hex_decode rest
  | _ => []

/-- The indices of `out_key_text` that `sprintf(out_key_text + off, "%02x", b)` writes: two
digits and the terminating NUL. -/
def sprintf_02x_writes (off : Nat) : List Nat := [off, off + 1, off + 2]

/-- The indices of `out_key_text` written by the hex loop with `n` iterations left, at
index `i`. -/
def hex_loop_writes : Nat → Nat → List Nat
  | 0, _ => []
  | n + 1, i => sprintf_02x_writes (i * 2) ++ hex_loop_writes n (i + 1)

/-! # Theorems -/

/-! ## Machine integers -/


theorem wrap32_eq_self (x : Int) (h : InRange 31 x) : wrap32 x = x := by
  unfold InRange at h
  unfold wrap32
  norm_num at h
  omega

theorem ofU32_toU32 (x : Int) : ofU32 (toU32 x) = wrap32 x := by
  unfold ofU32 toU32 wrap32
  split <;> omega

theorem testBit_toU32 (x : Int) (i : Nat) :
    (toU32 x).testBit i = (decide (i < 32) && Int.testBit x i) := by
  have h32 : (4294967296 : Nat) = 2 ^ 32 := by norm_num
  cases x with
  | ofNat m =>
    have : toU32 (Int.ofNat m) = m % 2 ^ 32 := by
      unfold toU32; simp only [Int.ofNat_eq_coe]; omega
    rw [this, Nat.testBit_mod_two_pow]
    rfl
  | negSucc m =>
    have : toU32 (Int.negSucc m) = 2 ^ 32 - (m % 2 ^ 32 + 1) := by
      unfold toU32
      have : Int.negSucc m = -((m : Int) + 1) := by rfl
      rw [this]
      omega
    rw [this, Nat.testBit_two_pow_sub_succ (Nat.mod_lt _ (by norm_num)), Nat.testBit_mod_two_pow]
    simp only [Int.testBit]
    cases decide (i < 32) <;> simp

theorem toU32_lor (a b : Int) : toU32 a ||| toU32 b = toU32 (Int.lor a b) := by
  apply Nat.eq_of_testBit_eq
  intro i
  simp only [Nat.testBit_or, testBit_toU32, Int.testBit_lor]
  cases decide (i < 32) <;> simp

theorem toU32_land (a b : Int) : toU32 a &&& toU32 b = toU32 (Int.land a b) := by
  apply Nat.eq_of_testBit_eq
  intro i
  simp only [Nat.testBit_and, testBit_toU32, Int.testBit_land]
  cases decide (i < 32) <;> simp

theorem toU32_xor (a b : Int) : toU32 a ^^^ toU32 b = toU32 (Int.xor a b) := by
  apply Nat.eq_of_testBit_eq
  intro i
  simp only [Nat.testBit_xor, testBit_toU32, Int.testBit_lxor]
  cases decide (i < 32) <;> simp

theorem toU32_lnot (a : Int) : 4294967295 - toU32 a = toU32 (Int.lnot a) := by
  have : Int.lnot a = -a - 1 := by
    cases a with
    | ofNat m => simp [Int.lnot, Int.negSucc_eq]; omega
    | negSucc m => simp [Int.lnot, Int.negSucc_eq]
  rw [this]
  unfold toU32
  omega

namespace I32

theorem add_val (a b : I32) : (a + b).val = wrap32 (a.val + b.val) := rfl
theorem sub_val (a b : I32) : (a - b).val = wrap32 (a.val - b.val) := rfl
theorem mul_val (a b : I32) : (a * b).val = wrap32 (a.val * b.val) := rfl
theorem shl_val (a : I32) (k : Nat) : (a <<< k).val = wrap32 (a.val * 2 ^ k) := rfl
theorem shr_val (a : I32) (k : Nat) : (a >>> k).val = a.val >>> k := rfl
theorem or_val (a b : I32) : (a ||| b).val = wrap32 (Int.lor a.val b.val) := by
  show ofU32 (toU32 a.val ||| toU32 b.val) = _
  rw [toU32_lor, ofU32_toU32]
theorem and_val (a b : I32) : (a &&& b).val = wrap32 (Int.land a.val b.val) := by
  show ofU32 (toU32 a.val &&& toU32 b.val) = _
  rw [toU32_land, ofU32_toU32]
theorem xor_val (a b : I32) : (a ^^^ b).val = wrap32 (Int.xor a.val b.val) := by
  show ofU32 (toU32 a.val ^^^ toU32 b.val) = _
  rw [toU32_xor, ofU32_toU32]
theorem not_val (a : I32) : (~~~ a).val = wrap32 (Int.lnot a.val) := by
  show ofU32 (4294967295 - toU32 a.val) = _
  rw [toU32_lnot, ofU32_toU32]
theorem ofNat_val (n : Nat) : (OfNat.ofNat n : I32).val = wrap32 (n : Int) := rfl

end I32


theorem inRange_ofNat (k m : Nat) : InRange k (Int.ofNat m) ↔ m < 2 ^ k := by
  unfold InRange
  have h : (0 : Int) < 2 ^ k := by positivity
  constructor
  · rintro ⟨_, h2⟩
    have : ((m : Nat) : Int) < ((2 ^ k : Nat) : Int) := by push_cast; exact h2
    exact_mod_cast this
  · intro h2
    have : ((m : Nat) : Int) < ((2 ^ k : Nat) : Int) := by exact_mod_cast h2
    push_cast at this
    constructor
    · have : (0 : Int) ≤ (m : Int) := Int.ofNat_nonneg m
      simp only [Int.ofNat_eq_coe]; linarith
    · exact this

theorem inRange_negSucc (k m : Nat) : InRange k (Int.negSucc m) ↔ m < 2 ^ k := by
  unfold InRange
  have h : (0 : Int) < 2 ^ k := by positivity
  rw [Int.negSucc_eq]
  constructor
  · rintro ⟨h1, _⟩
    have : ((m : Nat) : Int) < ((2 ^ k : Nat) : Int) := by push_cast; linarith
    exact_mod_cast this
  · intro h2
    have : ((m : Nat) : Int) < ((2 ^ k : Nat) : Int) := by exact_mod_cast h2
    push_cast at this
    have : (0 : Int) ≤ (m : Int) := Int.ofNat_nonneg m
    constructor <;> linarith

theorem ldiff_lt_two_pow {x y k : Nat} (h : x < 2 ^ k) : Nat.ldiff x y < 2 ^ k := by
  apply Nat.lt_pow_two_of_testBit
  intro i hi
  rw [Nat.testBit_ldiff]
  have : x.testBit i = false :=
    Nat.testBit_lt_two_pow (Nat.lt_of_lt_of_le h (Nat.pow_le_pow_right (by norm_num) hi))
  simp [this]

theorem lor_inRange {k : Nat} {a b : Int} (ha : InRange k a) (hb : InRange k b) :
    InRange k (Int.lor a b) := by
  cases a <;> cases b <;>
    simp only [Int.lor, Int.ofNat_eq_coe, inRange_negSucc] at * <;>
    first
    | exact (inRange_ofNat _ _).2 (Nat.or_lt_two_pow ((inRange_ofNat _ _).1 ha) ((inRange_ofNat _ _).1 hb))
    | exact ldiff_lt_two_pow hb
    | exact ldiff_lt_two_pow ha
    | exact Nat.lt_of_le_of_lt Nat.and_le_left ha

theorem land_inRange {k : Nat} {a b : Int} (ha : InRange k a) (hb : InRange k b) :
    InRange k (Int.land a b) := by
  cases a <;> cases b <;>
    simp only [Int.land, Int.ofNat_eq_coe, inRange_negSucc] at * <;>
    first
    | exact (inRange_ofNat _ _).2 (Nat.and_lt_two_pow _ ((inRange_ofNat _ _).1 hb))
    | exact (inRange_ofNat _ _).2 (ldiff_lt_two_pow ((inRange_ofNat _ _).1 ha))
    | exact (inRange_ofNat _ _).2 (ldiff_lt_two_pow ((inRange_ofNat _ _).1 hb))
    | exact Nat.or_lt_two_pow ha hb

theorem xor_inRange {k : Nat} {a b : Int} (ha : InRange k a) (hb : InRange k b) :
    InRange k (Int.xor a b) := by
  cases a <;> cases b <;>
    simp only [Int.xor, Int.ofNat_eq_coe, inRange_negSucc] at * <;>
    first
    | exact (inRange_ofNat _ _).2 (Nat.xor_lt_two_pow ((inRange_ofNat _ _).1 ha) ((inRange_ofNat _ _).1 hb))
    | exact Nat.xor_lt_two_pow ((inRange_ofNat _ _).1 ha) hb
    | exact Nat.xor_lt_two_pow ha ((inRange_ofNat _ _).1 hb)
    | exact (inRange_ofNat _ _).2 (Nat.xor_lt_two_pow ha hb)


theorem lnot_eq (a : Int) : Int.lnot a = -a - 1 := by
  cases a with
  | ofNat m => simp [Int.lnot, Int.negSucc_eq]; omega
  | negSucc m => simp [Int.lnot, Int.negSucc_eq]

theorem lnot_inRange {k : Nat} {a : Int} (ha : InRange k a) : InRange k (Int.lnot a) := by
  rw [lnot_eq]
  unfold InRange at *
  constructor <;> omega

theorem inRange_mono {j k : Nat} {x : Int} (h : InRange j x) (hjk : j ≤ k) : InRange k x := by
  unfold InRange at *
  have : (2 : Int) ^ j ≤ 2 ^ k := pow_le_pow_right₀ (by norm_num) hjk
  constructor <;> linarith [h.1, h.2]

theorem add_inRange {k : Nat} {a b : Int} (ha : InRange k a) (hb : InRange k b) :
    InRange (k + 1) (a + b) := by
  unfold InRange at *
  rw [pow_succ]
  constructor <;> linarith [ha.1, ha.2, hb.1, hb.2]

theorem sub_inRange {k : Nat} {a b : Int} (ha : InRange k a) (hb : InRange k b) :
    InRange (k + 1) (a - b) := by
  unfold InRange at *
  rw [pow_succ]
  constructor <;> linarith [ha.1, ha.2, hb.1, hb.2]

theorem inRange_abs {k : Nat} {a : Int} (ha : InRange k a) : |a| ≤ 2 ^ k := by
  unfold InRange at ha
  rw [abs_le]
  constructor <;> linarith [ha.1, ha.2]

theorem inRange_of_abs {k : Nat} {a : Int} (ha : |a| ≤ 2 ^ k) : InRange (k + 1) a := by
  unfold InRange
  rw [abs_le] at ha
  rw [pow_succ]
  have : (0 : Int) < 2 ^ k := by positivity
  constructor <;> linarith [ha.1, ha.2]

theorem mul_inRange {j k : Nat} {a b : Int} (ha : InRange j a) (hb : InRange k b) :
    InRange (j + k + 1) (a * b) := by
  apply inRange_of_abs
  rw [abs_mul, pow_add]
  exact mul_le_mul (inRange_abs ha) (inRange_abs hb) (abs_nonneg _) (by positivity)

theorem tdiv_inRange {k : Nat} {a : Int} (b : Int) (ha : InRange k a) :
    InRange (k + 1) (Int.tdiv a b) := by
  apply inRange_of_abs
  have h1 : (Int.tdiv a b).natAbs ≤ a.natAbs := by
    rw [Int.natAbs_tdiv]
    exact Nat.div_le_self _ _
  have h2 := inRange_abs ha
  rw [Int.abs_eq_natAbs] at h2 ⊢
  have : ((Int.tdiv a b).natAbs : Int) ≤ (a.natAbs : Int) := by exact_mod_cast h1
  linarith


theorem Rep.or {j k : Nat} {a b : I32} {x y : Int} (ha : Rep j a x) (hb : Rep k b y)
    (h : max j k ≤ 31) : Rep (max j k) (a ||| b) (Int.lor x y) := by
  have hr := lor_inRange (inRange_mono ha.2 (le_max_left j k)) (inRange_mono hb.2 (le_max_right j k))
  refine ⟨?_, hr⟩
  rw [I32.or_val, ha.1, hb.1, wrap32_eq_self _ (inRange_mono hr h)]

theorem Rep.and {j k : Nat} {a b : I32} {x y : Int} (ha : Rep j a x) (hb : Rep k b y)
    (h : max j k ≤ 31) : Rep (max j k) (a &&& b) (Int.land x y) := by
  have hr := land_inRange (inRange_mono ha.2 (le_max_left j k)) (inRange_mono hb.2 (le_max_right j k))
  refine ⟨?_, hr⟩
  rw [I32.and_val, ha.1, hb.1, wrap32_eq_self _ (inRange_mono hr h)]

theorem Rep.xor {j k : Nat} {a b : I32} {x y : Int} (ha : Rep j a x) (hb : Rep k b y)
    (h : max j k ≤ 31) : Rep (max j k) (a ^^^ b) (Int.xor x y) := by
  have hr := xor_inRange (inRange_mono ha.2 (le_max_left j k)) (inRange_mono hb.2 (le_max_right j k))
  refine ⟨?_, hr⟩
  rw [I32.xor_val, ha.1, hb.1, wrap32_eq_self _ (inRange_mono hr h)]

theorem Rep.not {k : Nat} {a : I32} {x : Int} (ha : Rep k a x) (h : k ≤ 31) :
    Rep k (~~~ a) (Int.lnot x) := by
  have hr := lnot_inRange ha.2
  refine ⟨?_, hr⟩
  rw [I32.not_val, ha.1, wrap32_eq_self _ (inRange_mono hr h)]

theorem Rep.add {j k : Nat} {a b : I32} {x y : Int} (ha : Rep j a x) (hb : Rep k b y)
    (h : max j k + 1 ≤ 31) : Rep (max j k + 1) (a + b) (x + y) := by
  have hr := add_inRange (inRange_mono ha.2 (le_max_left j k)) (inRange_mono hb.2 (le_max_right j k))
  refine ⟨?_, hr⟩
  rw [I32.add_val, ha.1, hb.1, wrap32_eq_self _ (inRange_mono hr h)]

theorem Rep.sub {j k : Nat} {a b : I32} {x y : Int} (ha : Rep j a x) (hb : Rep k b y)
    (h : max j k + 1 ≤ 31) : Rep (max j k + 1) (a - b) (x - y) := by
  have hr := sub_inRange (inRange_mono ha.2 (le_max_left j k)) (inRange_mono hb.2 (le_max_right j k))
  refine ⟨?_, hr⟩
  rw [I32.sub_val, ha.1, hb.1, wrap32_eq_self _ (inRange_mono hr h)]

theorem Rep.mul {j k : Nat} {a b : I32} {x y : Int} (ha : Rep j a x) (hb : Rep k b y)
    (h : j + k + 1 ≤ 31) : Rep (j + k + 1) (a * b) (x * y) := by
  have hr := mul_inRange ha.2 hb.2
  refine ⟨?_, hr⟩
  rw [I32.mul_val, ha.1, hb.1, wrap32_eq_self _ (inRange_mono hr h)]

theorem Rep.div {j k : Nat} {a b : I32} {x y : Int} (ha : Rep j a x) (hb : Rep k b y)
    (hy : y ≠ 0) (h : j + 1 ≤ 31) :
    ∃ q, I32.div? a b = some q ∧ Rep (j + 1) q (Int.tdiv x y) := by
  have hx31 : InRange 30 x := inRange_mono ha.2 (by omega)
  refine ⟨⟨Int.tdiv x y⟩, ?_, rfl, tdiv_inRange y ha.2⟩
  unfold I32.div?
  rw [ha.1, hb.1]
  have : ¬ (y = 0 ∨ x = -2147483648 ∧ y = -1) := by
    unfold InRange at hx31
    norm_num at hx31
    omega
  rw [if_neg this]

theorem Rep.ofChar (b : Nat) : Rep 7 (I32.ofChar b) (signed8 (b % 256)) := by
  unfold Rep I32.ofChar signed8 InRange
  norm_num
  split <;> omega

theorem Rep.lit15 : Rep 4 (0xf : I32) 0xF := by
  unfold Rep InRange
  refine ⟨by decide, by norm_num⟩

theorem Rep.lit1 : Rep 1 (1 : I32) 1 := by
  unfold Rep InRange
  refine ⟨by decide, by norm_num⟩



theorem land_15_bounds (x : Int) : 0 ≤ Int.land x 0xF ∧ Int.land x 0xF ≤ 15 := by
  cases x with
  | ofNat m =>
    have h : Int.land (Int.ofNat m) 0xF = ((m &&& 15 : Nat) : Int) := rfl
    have h2 : m &&& 15 ≤ 15 := Nat.and_le_right
    rw [h]; omega
  | negSucc m =>
    have h : Int.land (Int.negSucc m) 0xF = ((Nat.ldiff 15 m : Nat) : Int) := rfl
    have h2 : Nat.ldiff 15 m < 2 ^ 4 := ldiff_lt_two_pow (by norm_num)
    rw [h]; omega

theorem lor_nonneg {a b : Int} (ha : 0 ≤ a) (hb : 0 ≤ b) : 0 ≤ Int.lor a b := by
  cases a with
  | ofNat m =>
    cases b with
    | ofNat n => exact Int.ofNat_nonneg _
    | negSucc n => exact absurd hb (by simp)
  | negSucc m => exact absurd ha (by simp)

theorem pack_nibbles_eq {hi lo : I32} {x y : Int} (hx : hi.val = x) (hy : lo.val = y) :
    ((pack_nibbles hi lo : Nat) : Int) = spec_pack x y := by
  obtain ⟨h0, h1⟩ := land_15_bounds x
  obtain ⟨l0, l1⟩ := land_15_bounds y
  have e1 : (hi &&& 0xf).val = Int.land x 0xF := by
    rw [I32.and_val, hx]
    have : (0xf : I32).val = 0xF := by decide
    rw [this]
    unfold wrap32; omega
  have e2 : (lo &&& 0xf).val = Int.land y 0xF := by
    rw [I32.and_val, hy]
    have : (0xf : I32).val = 0xF := by decide
    rw [this]
    unfold wrap32; omega
  have e3 : (I32.ofUChar (I32.toUChar ((hi &&& 0xf) <<< (4 : Nat)))).val = Int.land x 0xF * 2 ^ 4 := by
    unfold I32.ofUChar I32.toUChar
    rw [I32.shl_val, e1]
    simp only
    unfold wrap32
    omega
  have r1 : InRange 8 (Int.land x 0xF * 2 ^ 4) := by
    unfold InRange; constructor <;> norm_num <;> omega
  have r2 : InRange 8 (Int.land y 0xF) := by
    unfold InRange; constructor <;> norm_num <;> omega
  have r3 := lor_inRange r1 r2
  have r4 : 0 ≤ Int.lor (Int.land x 0xF * 2 ^ 4) (Int.land y 0xF) :=
    lor_nonneg (by omega) l0
  have e4 : (I32.ofUChar (I32.toUChar ((hi &&& 0xf) <<< (4 : Nat))) ||| (lo &&& 0xf)).val
      = wrap32 (Int.lor (Int.land x 0xF * 2 ^ 4) (Int.land y 0xF)) := by
    rw [I32.or_val, e3, e2]
  unfold pack_nibbles spec_pack
  show (((_ : Int) % 256).toNat : Int) = _
  rw [e4]
  generalize Int.lor (Int.land x 0xF * 2 ^ 4) (Int.land y 0xF) = v at r3 r4 ⊢
  unfold InRange at r3
  norm_num at r3
  unfold wrap32
  omega



theorem store_bytes_length (mem : List Nat) (off : Nat) (bs : List Nat) :
    (store_bytes mem off bs).length = mem.length := by
  induction bs generalizing mem off with
  | nil => rfl
  | cons b bs ih => simp [store_bytes, ih]

theorem getD_set (l : List Nat) (i j v : Nat) :
    (l.set i v).getD j 0 = if i = j ∧ i < l.length then v else l.getD j 0 := by
  simp only [List.getD_eq_getElem?_getD, List.getElem?_set]
  by_cases h : i = j
  · subst h
    by_cases h2 : i < l.length
    · simp [h2]
    · simp [h2, List.getElem?_eq_none (Nat.le_of_not_lt h2)]
  · simp [h]

theorem getD_set_self (l : List Nat) (i v : Nat) (h : i < l.length) :
    (l.set i v).getD i 0 = v := by
  rw [getD_set]; simp [h]

theorem getD_store_bytes (mem : List Nat) (off : Nat) (bs : List Nat) (j : Nat) :
    (store_bytes mem off bs).getD j 0 =
      if off ≤ j ∧ j < off + bs.length ∧ j < mem.length then bs.getD (j - off) 0
      else mem.getD j 0 := by
  induction bs generalizing mem off with
  | nil =>
    have : ¬ (off ≤ j ∧ j < off + ([] : List Nat).length ∧ j < mem.length) := by
      simp only [List.length_nil]; omega
    rw [store_bytes, if_neg this]
  | cons b bs ih =>
    rw [store_bytes, ih, getD_set, List.length_set, List.length_cons]
    by_cases h1 : off = j
    · subst h1
      by_cases h2 : off < mem.length
      · have e1 : ¬ (off + 1 ≤ off ∧ off < off + 1 + bs.length ∧ off < mem.length) := by omega
        have e2 : (off ≤ off ∧ off < off + (bs.length + 1) ∧ off < mem.length) := by omega
        rw [if_neg e1, if_pos e2, if_pos ⟨rfl, h2⟩, Nat.sub_self]; rfl
      · have e1 : ¬ (off + 1 ≤ off ∧ off < off + 1 + bs.length ∧ off < mem.length) := by omega
        have e2 : ¬ (off ≤ off ∧ off < off + (bs.length + 1) ∧ off < mem.length) := by omega
        have e3 : ¬ (off = off ∧ off < mem.length) := by omega
        rw [if_neg e1, if_neg e2, if_neg e3]
    · have e3 : ¬ (off = j ∧ off < mem.length) := by omega
      rw [if_neg e3]
      by_cases h2 : off + 1 ≤ j ∧ j < off + 1 + bs.length ∧ j < mem.length
      · have e2 : (off ≤ j ∧ j < off + (bs.length + 1) ∧ j < mem.length) := by omega
        rw [if_pos h2, if_pos e2]
        have : j - off = (j - (off + 1)) + 1 := by omega
        rw [this]; rfl
      · have e2 : ¬ (off ≤ j ∧ j < off + (bs.length + 1) ∧ j < mem.length) := by omega
        rw [if_neg h2, if_neg e2]


/-! ## Scrambler -/

theorem xor_mod_256 (a b : Nat) : (a ^^^ b) % 256 = (a % 256) ^^^ (b % 256) := by
  apply Nat.eq_of_testBit_eq
  intro j
  have h : (256 : Nat) = 2 ^ 8 := by norm_num
  rw [h]
  simp only [Nat.testBit_mod_two_pow, Nat.testBit_xor]
  cases decide (j < 8) <;> simp

set_option maxRecDepth 100000 in
theorem scramble_bits_eq_reverse :
    ∀ x, x < 256 → (scramble_bits 8 (x, 0)).2 = reverse_bit_order_8 x := by
  decide

set_option maxRecDepth 100000 in
theorem reverse_involutive :
    ∀ x, x < 256 → reverse_bit_order_8 (reverse_bit_order_8 x) = x := by
  decide

set_option maxRecDepth 100000 in
theorem reverse_lt : ∀ x, x < 256 → reverse_bit_order_8 x < 256 := by
  decide

set_option maxRecDepth 100000 in
theorem shift_table : ∀ k, k < 32 →
    I32.toSize ((1 : I32) <<< I32.toCount (((1 : I32) <<< k) &&& 7)) = 2 ^ ((2 ^ k) &&& 7)
    ∧ 2 ^ ((2 ^ k) &&& 7) ≤ 16 := by
  decide

theorem scramble_mask_mod (i : Nat) : scramble_mask i % 256 = (spec_mask i % 256).toNat := by
  have hk : i &&& 31 < 32 := Nat.lt_succ_of_le Nat.and_le_right
  obtain ⟨h1, h2⟩ := shift_table (i &&& 31) hk
  have h3 : I32.toSize (-1) = 18446744073709551615 := by decide
  have hcast : ((2 : Int) ^ ((2 ^ (i &&& 31)) &&& 7))
      = ((2 ^ ((2 ^ (i &&& 31)) &&& 7) : Nat) : Int) := by
    push_cast; rfl
  unfold scramble_mask spec_mask
  rw [h1, h3, hcast]
  generalize (2 : Nat) ^ ((2 ^ (i &&& 31)) &&& 7) = s at h2 ⊢
  unfold size_sub
  omega

theorem scramble_loop_length (n i : Nat) (key : List Nat) :
    (scramble_loop n i key).length = key.length := by
  induction n generalizing i key with
  | zero => rfl
  | succ n ih => simp [scramble_loop, ih]

theorem scramble_loop_getD (n i : Nat) (key : List Nat) (h : i + n ≤ key.length) (j : Nat) :
    (scramble_loop n i key).getD j 0 =
      if i ≤ j ∧ j < i + n then scramble_byte (key.getD j 0) j else key.getD j 0 := by
  induction n generalizing i key with
  | zero =>
    have : ¬ (i ≤ j ∧ j < i + 0) := by omega
    rw [scramble_loop, if_neg this]
  | succ n ih =>
    rw [scramble_loop, ih (i + 1) _ (by simp; omega), getD_set]
    by_cases h1 : i = j
    · subst h1
      have e1 : ¬ (i + 1 ≤ i ∧ i < i + 1 + n) := by omega
      have e2 : (i = i ∧ i < key.length) := by omega
      have e3 : (i ≤ i ∧ i < i + (n + 1)) := by omega
      simp only [e1, e2, e3, if_true, if_false, and_self]
    · have e2 : ¬ (i = j ∧ i < key.length) := by omega
      simp only [e2, if_false]
      by_cases h3 : i + 1 ≤ j ∧ j < i + 1 + n
      · have e3 : (i ≤ j ∧ j < i + (n + 1)) := by omega
        simp only [h3, e3, if_true, and_self]
      · have e3 : ¬ (i ≤ j ∧ j < i + (n + 1)) := by omega
        simp only [h3, e3, if_false]

theorem scramble_getD (key : List Nat) (i : Nat) (hi : i < key.length) :
    (scramble key key.length).getD i 0 = scramble_byte (key.getD i 0) i := by
  unfold scramble
  rw [scramble_loop_getD _ _ _ (by omega)]
  simp [hi]

theorem scramble_byte_eq (b i : Nat) (hb : b < 256) :
    scramble_byte b i = reverse_bit_order_8 (b ^^^ (spec_mask i % 256).toNat) := by
  unfold scramble_byte
  simp only
  rw [scramble_bits_eq_reverse _ (Nat.mod_lt _ (by norm_num)), xor_mod_256, scramble_mask_mod,
    Nat.mod_eq_of_lt hb]

theorem spec_mask_lt (i : Nat) : (spec_mask i % 256).toNat < 256 := by
  omega

theorem xor_lt_256 (a b : Nat) (ha : a < 256) (hb : b < 256) : a ^^^ b < 256 :=
  @Nat.xor_lt_two_pow a b 8 ha hb

theorem descramble_scramble_byte (b i : Nat) (hb : b < 256) :
    descramble_byte (scramble_byte b i) i = b := by
  rw [scramble_byte_eq b i hb]
  unfold descramble_byte
  rw [reverse_involutive _ (xor_lt_256 _ _ hb (spec_mask_lt i)), Nat.xor_assoc, Nat.xor_self,
    Nat.xor_zero]

theorem descramble_byte_lt (s i : Nat) (hs : s < 256) : descramble_byte s i < 256 :=
  xor_lt_256 _ _ (reverse_lt s hs) (spec_mask_lt i)

theorem scramble_descramble_byte (s i : Nat) (hs : s < 256) :
    scramble_byte (descramble_byte s i) i = s := by
  rw [scramble_byte_eq _ i (descramble_byte_lt s i hs)]
  unfold descramble_byte
  rw [Nat.xor_assoc, Nat.xor_self, Nat.xor_zero, reverse_involutive s hs]

theorem scramble_byte_lt (b i : Nat) (hb : b < 256) : scramble_byte b i < 256 := by
  rw [scramble_byte_eq b i hb]
  exact reverse_lt _ (xor_lt_256 _ _ hb (spec_mask_lt i))

theorem getD_lt_256 {buf : List Nat} (h : ∀ b ∈ buf, b < 256) (j : Nat) :
    buf.getD j 0 < 256 := by
  by_cases hj : j < buf.length
  · rw [List.getD_eq_getElem _ _ hj]; exact h _ (List.getElem_mem _)
  · rw [List.getD_eq_default _ _ (Nat.le_of_not_lt hj)]; norm_num

/-- C1: scrambling is undone, byte by byte, by the inverse the specification describes,
`reverse_bit_order_8(s) XOR (mask(i) & 0xFF)`: on every byte of every scrambled buffer, and
for every index the per-byte map is a bijection on 0..255; at index 0 the byte 0x01 scrambles
to 0x3F and descrambles back. -/
theorem scramble_round_trip :
    (∀ (buf : List Nat), (∀ b ∈ buf, b < 256) → ∀ i, i < buf.length →
        descramble_byte ((scramble buf buf.length).getD i 0) i = buf.getD i 0)
    ∧ (∀ i, Set.BijOn (fun b => scramble_byte b i) (Set.Iio 256) (Set.Iio 256))
    ∧ (∀ i b, b < 256 → descramble_byte (scramble_byte b i) i = b)
    ∧ scramble_byte 0x01 0 = 0x3F ∧ descramble_byte 0x3F 0 = 0x01 := by
  refine ⟨?_, ?_, ?_, by decide, by decide⟩
  · intro buf hbuf i hi
    rw [scramble_getD buf i hi]
    exact descramble_scramble_byte _ i (getD_lt_256 hbuf i)
  · intro i
    have hinv : Set.InvOn (fun s => descramble_byte s i) (fun b => scramble_byte b i)
        (Set.Iio 256) (Set.Iio 256) :=
      ⟨fun b hb => descramble_scramble_byte b i hb, fun s hs => scramble_descramble_byte s i hs⟩
    exact hinv.bijOn (fun b hb => scramble_byte_lt b i hb)
      (fun s hs => descramble_byte_lt s i hs)
  · intro i b hb; exact descramble_scramble_byte b i hb

/-- Instance of C1 on the three-byte buffer `01 02 03` at index 2. -/
theorem scramble_round_trip_witness :
    descramble_byte ((scramble [1, 2, 3] 3).getD 2 0) 2 = 3 :=
  scramble_round_trip.1 [1, 2, 3] (by decide) 2 (by decide)

/-! ## Name-check generator -/

theorem calc_name_check_eq (mem : List Nat) (trailer : Nat) (name : List Nat) (q : I32)
    (hlen : trailer + 8 ≤ mem.length)
    (hq : I32.div? (I32.ofChar (name.getD 0 0) * I32.ofChar (name.getD 1 0))
      ((I32.ofChar (name.getD 2 0) - I32.ofChar (name.getD 3 0)) + 1) = some q) :
    calc_name_check mem trailer name = some (store_bytes mem trailer
      (check_bytes (I32.ofChar (name.getD 0 0)) (I32.ofChar (name.getD 1 0))
        (I32.ofChar (name.getD 2 0)) (I32.ofChar (name.getD 3 0))
        (I32.ofChar (name.getD 4 0)) q)) := by
  simp only [calc_name_check, hq, bind, Option.bind, pure, check_bytes, store_bytes, pack_nibbles]
  rw [getD_set_self _ _ _ (by omega), List.set_set]
  rw [getD_set_self _ _ _ (by simp; omega), List.set_set]
  rw [getD_set_self _ _ _ (by simp; omega), List.set_set]
  rw [getD_set_self _ _ _ (by simp; omega), List.set_set]
  simp only [Nat.add_zero, Nat.add_assoc, Nat.reduceAdd]

theorem mod_256_of_mem {name : List Nat} (h : ∀ b ∈ name, b < 256) (j : Nat) :
    name.getD j 0 % 256 = name.getD j 0 := by
  apply Nat.mod_eq_of_lt
  by_cases hj : j < name.length
  · rw [List.getD_eq_getElem _ _ hj]; exact h _ (List.getElem_mem _)
  · rw [List.getD_eq_default _ _ (Nat.le_of_not_lt hj)]; norm_num

/-- C4: for five name bytes read as signed 8-bit integers with `n2 - n3 + 1 != 0`,
`calc_name_check` writes `trailer[0..3]` equal to the specification's `b0..b3`, each
`(high & 0xF) << 4 | (low & 0xF)` in 32-bit signed arithmetic with `/` truncating toward
zero: for `ACAD ` the divisor is -2, `4355 / -2 = -2177` and `b1 = 0xF0`, where flooring
division would give `0xE0`. -/
theorem name_check_formula (mem : List Nat) (trailer : Nat) (name : List Nat)
    (hmem : trailer + 8 ≤ mem.length) (hname : ∀ b ∈ name, b < 256)
    (hdiv : signed8 (name.getD 2 0) - signed8 (name.getD 3 0) + 1 ≠ 0) :
    (∃ mem', calc_name_check mem trailer name = some mem' ∧
      ((mem'.getD (trailer + 0) 0 : Nat) : Int) =
        spec_b0 (signed8 (name.getD 0 0)) (signed8 (name.getD 1 0)) (signed8 (name.getD 2 0))
          (signed8 (name.getD 3 0)) (signed8 (name.getD 4 0)) ∧
      ((mem'.getD (trailer + 1) 0 : Nat) : Int) =
        spec_b1 (signed8 (name.getD 0 0)) (signed8 (name.getD 1 0)) (signed8 (name.getD 2 0))
          (signed8 (name.getD 3 0)) (signed8 (name.getD 4 0)) ∧
      ((mem'.getD (trailer + 2) 0 : Nat) : Int) =
        spec_b2 (signed8 (name.getD 0 0)) (signed8 (name.getD 1 0)) (signed8 (name.getD 2 0))
          (signed8 (name.getD 3 0)) (signed8 (name.getD 4 0)) ∧
      ((mem'.getD (trailer + 3) 0 : Nat) : Int) =
        spec_b3 (signed8 (name.getD 0 0)) (signed8 (name.getD 1 0)) (signed8 (name.getD 2 0))
          (signed8 (name.getD 3 0)) (signed8 (name.getD 4 0)))
    ∧ calc_name_check (List.replicate 8 0) 0 [65, 67, 65, 68, 32]
        = some [0x67, 0xF0, 0x94, 0x71, 0, 0, 0, 0]
    ∧ Int.tdiv (65 * 67) ((65 - 68) + 1) = -2177
    ∧ spec_b1 65 67 65 68 32 = 0xF0 ∧ floor_b1 65 67 65 68 32 = 0xE0 := by
  refine ⟨?_, by decide, by decide, by decide!, by decide!⟩
  have r : ∀ j, Rep 7 (I32.ofChar (name.getD j 0)) (signed8 (name.getD j 0)) := by
    intro j
    have := Rep.ofChar (name.getD j 0)
    rwa [mod_256_of_mem hname] at this
  obtain ⟨q, hq, rq⟩ := Rep.div (Rep.mul (r 0) (r 1) (by decide))
    (Rep.add (Rep.sub (r 2) (r 3) (by decide)) Rep.lit1 (by decide)) hdiv (by decide)
  refine ⟨_, calc_name_check_eq mem trailer name q hmem hq, ?_, ?_, ?_, ?_⟩
  · rw [getD_store_bytes, if_pos (by simp [check_bytes]; omega)]
    simp only [Nat.add_zero, Nat.sub_self, check_bytes, List.getD_cons_zero]
    exact pack_nibbles_eq
      (Rep.xor (Rep.or (r 0) (r 1) (by decide))
        (Rep.add (Rep.or (r 2) (r 3) (by decide)) (r 4) (by decide)) (by decide)).1
      (Rep.xor (Rep.xor (Rep.xor (Rep.xor (r 0) (r 1) (by decide)) (r 2) (by decide)) (r 3)
        (by decide)) (r 4) (by decide)).1
  · rw [getD_store_bytes, if_pos (by simp [check_bytes]; omega)]
    simp only [Nat.add_sub_cancel_left, check_bytes, List.getD_cons_succ, List.getD_cons_zero]
    exact pack_nibbles_eq (Rep.sub rq (r 4) (by decide)).1 (Rep.mul rq (r 4) (by decide)).1
  · rw [getD_store_bytes, if_pos (by simp [check_bytes]; omega)]
    simp only [Nat.add_sub_cancel_left, check_bytes, List.getD_cons_succ, List.getD_cons_zero]
    exact pack_nibbles_eq
      (Rep.xor (Rep.mul (Rep.add (r 2) (r 3) (by decide)) (Rep.sub (r 0) (r 1) (by decide))
        (by decide)) (Rep.not (r 4) (by decide)) (by decide)).1
      (Rep.xor (Rep.mul (Rep.sub (r 2) (r 3) (by decide)) (Rep.add (r 0) (r 1) (by decide))
        (by decide)) (r 4) (by decide)).1
  · rw [getD_store_bytes, if_pos (by simp [check_bytes]; omega)]
    simp only [Nat.add_sub_cancel_left, check_bytes, List.getD_cons_succ, List.getD_cons_zero]
    exact pack_nibbles_eq
      (Rep.xor (Rep.add (Rep.xor (r 0) (r 1) (by decide)) (Rep.xor (r 2) (r 3) (by decide))
        (by decide)) (r 4) (by decide)).1
      (Rep.sub (Rep.sub (Rep.add (Rep.add (r 0) (r 1) (by decide)) (r 2) (by decide)) (r 3)
        (by decide)) (r 4) (by decide)).1


/-- Instance of C4 for the name `ACAD ` in an eight-byte trailer. -/
theorem name_check_formula_witness :
    ∃ mem', calc_name_check (List.replicate 8 0) 0 [65, 67, 65, 68, 32] = some mem' ∧
      ((mem'.getD (0 + 1) 0 : Nat) : Int) = spec_b1 (signed8 65) (signed8 67) (signed8 65)
        (signed8 68) (signed8 32) := by
  obtain ⟨m, h, _, h1, _⟩ := (name_check_formula (List.replicate 8 0) 0 [65, 67, 65, 68, 32]
    (by decide) (by decide) (by decide)).1
  exact ⟨m, h, h1⟩

/-! ## Checksum engine -/

theorem getD_append_mid (A B : List Nat) (b : Nat) :
    (A ++ (b :: B)).getD A.length 0 = b := by
  induction A with
  | nil => rfl
  | cons a A ih => simpa using ih

theorem for_loop_checksum (A B C : List Nat) (c : I32) :
    for_loop (fun i checksum => checksum_step checksum ((A ++ (B ++ C)).getD i 0))
      B.length A.length c = B.foldl checksum_step c := by
  induction B generalizing A c with
  | nil => rfl
  | cons b B ih =>
    have h := ih (A ++ [b]) (checksum_step c b)
    rw [List.length_append, List.length_singleton, List.append_assoc, List.singleton_append] at h
    rw [List.length_cons, for_loop, List.foldl_cons, ← h, List.cons_append, getD_append_mid]

theorem calc_checksum_prefix (B C : List Nat) :
    calc_checksum (B ++ C) B.length = B.foldl checksum_step 0 :=
  for_loop_checksum [] B C 0

theorem calc_checksum_eq_foldl (B : List Nat) :
    calc_checksum B B.length = B.foldl checksum_step 0 := by
  have := calc_checksum_prefix B []
  rwa [List.append_nil] at this

theorem wrap32_wrap32_add (x y : Int) : wrap32 (wrap32 x + y) = wrap32 (x + y) := by
  unfold wrap32
  omega

theorem wrap32_add_wrap32 (x y : Int) : wrap32 (x + wrap32 y) = wrap32 (x + y) := by
  unfold wrap32
  omega

theorem checksum_step_val (c : I32) (b : Nat) (hb : b < 256) :
    (checksum_step c b).val = spec_checksum_step c.val b := by
  have h1 : (0x11121 : I32).val = 69921 := by decide
  have h2 : ((2 ^ 26 : Nat) : Int) = 2 ^ 26 := by norm_num
  unfold checksum_step spec_checksum_step
  simp only [I32.add_val, I32.mul_val, I32.shl_val, I32.shr_val, I32.ofUChar,
    Int.shiftRight_eq_div_pow, h1, h2, Nat.mod_eq_of_lt hb, wrap32_wrap32_add,
    wrap32_add_wrap32]

theorem foldl_checksum_step_val (B : List Nat) (hB : ∀ b ∈ B, b < 256) (c : I32) :
    (B.foldl checksum_step c).val = B.foldl spec_checksum_step c.val := by
  induction B generalizing c with
  | nil => rfl
  | cons b B ih =>
    rw [List.foldl_cons, List.foldl_cons, ih (fun x hx => hB x (List.mem_cons_of_mem _ hx)),
      checksum_step_val c b (hB b (List.mem_cons_self _ _))]

theorem zero_val : (0 : I32).val = 0 := by decide

/-- C5: the checksum of a byte sequence is the left fold, from 0, of the specification's
step `t = wrap32(b * 0x11121 + (c << 3)); wrap32(t + (t >> 26))` (unsigned bytes, 32-bit
wraparound, arithmetic right shift); the checksum of the empty sequence is 0. -/
theorem checksum_recurrence (key : List Nat) (hkey : ∀ b ∈ key, b < 256) :
    (calc_checksum key key.length).val = key.foldl spec_checksum_step 0
    ∧ (calc_checksum [] 0).val = 0 := by
  refine ⟨?_, by decide⟩
  rw [calc_checksum_eq_foldl, foldl_checksum_step_val key hkey, zero_val]

/-- Instance of C5 on the bytes `01 ff 80`. -/
theorem checksum_recurrence_witness :
    (calc_checksum [1, 255, 128] 3).val = [1, 255, 128].foldl spec_checksum_step 0 :=
  (checksum_recurrence [1, 255, 128] (by decide)).1

/-! ## Buffers -/

theorem store_bytes_append (A B : List Nat) (k : Nat) (bs : List Nat) :
    store_bytes (A ++ B) (A.length + k) bs = A ++ store_bytes B k bs := by
  induction bs generalizing B k with
  | nil => rfl
  | cons b bs ih =>
    rw [store_bytes, store_bytes, List.set_append_right _ _ (by omega), Nat.add_sub_cancel_left,
      Nat.add_assoc, ih]

theorem store_bytes_zero (B C bs : List Nat) (h : bs.length = B.length) :
    store_bytes (B ++ C) 0 bs = bs ++ C := by
  induction bs generalizing B with
  | nil =>
    have : B = [] := List.length_eq_zero.mp h.symm
    subst this; rfl
  | cons b bs ih =>
    cases B with
    | nil => simp at h
    | cons x B =>
      have h2 : bs.length = B.length := by simpa using h
      have := store_bytes_append [b] (B ++ C) 0 bs
      simp only [List.length_singleton, List.singleton_append] at this
      rw [store_bytes, List.cons_append, List.set_cons_zero]
      rw [show (0 : Nat) + 1 = 1 + 0 from rfl, this, ih B h2]
      rfl

theorem store_at (A B C bs : List Nat) (off : Nat) (hoff : off = A.length)
    (h : bs.length = B.length) : store_bytes (A ++ (B ++ C)) off bs = A ++ (bs ++ C) := by
  subst hoff
  have := store_bytes_append A (B ++ C) 0 bs
  rw [Nat.add_zero] at this
  rw [this, store_bytes_zero B C bs h]

theorem set_at (A C : List Nat) (x v : Nat) (off : Nat) (hoff : off = A.length) :
    (A ++ (x :: C)).set off v = A ++ (v :: C) := by
  subst hoff
  rw [List.set_append_right _ _ (Nat.le_refl _), Nat.sub_self, List.set_cons_zero]

theorem split_at (l : List Nat) (n : Nat) (h : n ≤ l.length) :
    ∃ A B, l = A ++ B ∧ A.length = n ∧ B.length = l.length - n :=
  ⟨l.take n, l.drop n, (List.take_append_drop n l).symm, by simp [h], by simp⟩

theorem ext_getD (l₁ l₂ : List Nat) (hlen : l₁.length = l₂.length)
    (h : ∀ j, j < l₁.length → l₁.getD j 0 = l₂.getD j 0) : l₁ = l₂ := by
  apply List.ext_getElem hlen
  intro j h1 h2
  have := h j h1
  rwa [List.getD_eq_getElem _ _ h1, List.getD_eq_getElem _ _ h2] at this

theorem pad_loop_eq (name_len n i : Nat) (name : List Nat) :
    pad_loop name_len n i name = store_bytes name (name_len + i) (List.replicate n 32) := by
  induction n generalizing i name with
  | zero => rfl
  | succ n ih =>
    rw [pad_loop, ih, List.replicate_succ, store_bytes, Nat.add_assoc]

/-! ## The name buffer of `main` -/

theorem replicate_split (a b : Nat) (v : Nat) :
    List.replicate (a + b) v = List.replicate a v ++ List.replicate b v := by
  rw [List.replicate_add]

theorem name_buffer_copy (name : List Nat) (hlen : name.length ≤ 108) :
    strncpy ((List.replicate (MAXLEN + 1) 0).set MAXLEN 0) name MAXLEN
      = name ++ List.replicate (109 - name.length) 0 := by
  have h0 : (List.replicate (MAXLEN + 1) 0).set MAXLEN 0 = List.replicate 109 0 := by decide
  have h1 : List.replicate 109 0
      = [] ++ (List.replicate 108 0 ++ List.replicate 1 0) := by decide
  have h2 : (List.take MAXLEN name ++ List.replicate (MAXLEN - name.length) 0).length
      = (List.replicate 108 0).length := by
    simp [MAXLEN]; omega
  unfold strncpy
  rw [h0, h1, store_at [] _ _ _ 0 rfl h2]
  have h3 : List.take MAXLEN name = name := List.take_of_length_le (by simp [MAXLEN]; omega)
  have h4 : 109 - name.length = (MAXLEN - name.length) + 1 := by simp [MAXLEN]; omega
  rw [h3, h4, replicate_split]
  simp

theorem name_buffer_pad (name : List Nat) (hlen : name.length < 5) :
    (pad_loop name.length (5 - name.length) 0
        (name ++ List.replicate (109 - name.length) 0)).set 5 0
      = padded_name name ++ List.replicate 104 0 := by
  have h1 : 109 - name.length = (5 - name.length) + 104 := by omega
  rw [pad_loop_eq, h1, replicate_split, Nat.add_zero,
    store_at name _ _ _ _ rfl (by simp)]
  unfold padded_name
  have h2 : (104 : Nat) = 0 + 1 + 103 := rfl
  have h3 : name ++ (List.replicate (5 - name.length) 32 ++ List.replicate 104 0)
      = (name ++ List.replicate (5 - name.length) 32) ++ (0 :: List.replicate 103 0) := by
    simp [List.replicate_succ]
  rw [h3, set_at _ _ _ _ _ (by simp; omega)]
  simp [List.replicate_succ]

theorem padded_name_length (name : List Nat) :
    (padded_name name).length = max name.length 5 := by
  unfold padded_name
  simp
  omega

theorem padded_name_of_le (name : List Nat) (h : 5 ≤ name.length) : padded_name name = name := by
  unfold padded_name
  have : 5 - name.length = 0 := by omega
  rw [this]; simp

/-! ## The key buffer of `main` -/

theorem le_bytes32_length (v : Nat) : (le_bytes32 v).length = 4 := rfl

theorem key_build (J : List Nat) (hJ : J.length = 126) (f : Nat) (p Z tb : List Nat)
    (hp : p.length ≤ 108) (htb : tb.length = 8) :
    ∃ R, R.length = 126 - (p.length + 18) ∧
      memset (store_bytes ((memcpy (memcpy (J.set 0 1) 1 (le_bytes32 f) 4) 9 (p ++ Z)
          p.length).set (9 + p.length) 0) (9 + p.length + 1) tb) 5 0 4
        = raw_layout f [0, 0, 0, 0] p tb ++ R := by
  obtain ⟨A1, J1, rfl, hA1, hJ1⟩ := split_at J 1 (by omega)
  obtain ⟨B4, J2, rfl, hB4, hJ2⟩ := split_at J1 4 (by omega)
  obtain ⟨C4, J3, rfl, hC4, hJ3⟩ := split_at J2 4 (by omega)
  obtain ⟨P, J4, rfl, hP, hJ4⟩ := split_at J3 p.length (by omega)
  obtain ⟨Z1, J5, rfl, hZ1, hJ5⟩ := split_at J4 1 (by omega)
  obtain ⟨T8, R, rfl, hT8, hR⟩ := split_at J5 8 (by omega)
  obtain ⟨a, rfl⟩ := List.length_eq_one.mp hA1
  obtain ⟨z, rfl⟩ := List.length_eq_one.mp hZ1
  refine ⟨R, by simp at hJ; omega, ?_⟩
  have s1 : ([a] ++ (B4 ++ (C4 ++ (P ++ ([z] ++ (T8 ++ R)))))).set 0 1
      = [1] ++ (B4 ++ (C4 ++ (P ++ ([z] ++ (T8 ++ R))))) := rfl
  have s2 : memcpy ([1] ++ (B4 ++ (C4 ++ (P ++ ([z] ++ (T8 ++ R)))))) 1 (le_bytes32 f) 4
      = [1] ++ (le_bytes32 f ++ (C4 ++ (P ++ ([z] ++ (T8 ++ R))))) :=
    store_at [1] B4 _ _ 1 rfl (by simp [le_bytes32, hB4])
  have s3 : memcpy ([1] ++ (le_bytes32 f ++ (C4 ++ (P ++ ([z] ++ (T8 ++ R)))))) 9 (p ++ Z)
      p.length = ([1] ++ (le_bytes32 f ++ C4)) ++ (p ++ ([z] ++ (T8 ++ R))) := by
    unfold memcpy
    rw [List.take_left]
    have e : [1] ++ (le_bytes32 f ++ (C4 ++ (P ++ ([z] ++ (T8 ++ R)))))
        = ([1] ++ (le_bytes32 f ++ C4)) ++ (P ++ ([z] ++ (T8 ++ R))) := by
      simp only [List.append_assoc]
    rw [e]
    exact store_at _ P _ p 9 (by simp [le_bytes32_length, hC4]) hP.symm
  have s4 : (([1] ++ (le_bytes32 f ++ C4)) ++ (p ++ ([z] ++ (T8 ++ R)))).set (9 + p.length) 0
      = (([1] ++ (le_bytes32 f ++ C4)) ++ p) ++ ([0] ++ (T8 ++ R)) := by
    have e : ([1] ++ (le_bytes32 f ++ C4)) ++ (p ++ ([z] ++ (T8 ++ R)))
        = (([1] ++ (le_bytes32 f ++ C4)) ++ p) ++ (z :: (T8 ++ R)) := by
      simp only [List.append_assoc, List.singleton_append]
    rw [e]
    exact set_at _ _ z 0 _ (by simp [le_bytes32_length, hC4]; omega)
  have s5 : store_bytes ((([1] ++ (le_bytes32 f ++ C4)) ++ p) ++ ([0] ++ (T8 ++ R)))
      (9 + p.length + 1) tb
      = ((([1] ++ (le_bytes32 f ++ C4)) ++ p) ++ [0]) ++ (tb ++ R) := by
    have e : (([1] ++ (le_bytes32 f ++ C4)) ++ p) ++ ([0] ++ (T8 ++ R))
        = ((([1] ++ (le_bytes32 f ++ C4)) ++ p) ++ [0]) ++ (T8 ++ R) := by
      simp only [List.append_assoc]
    rw [e]
    exact store_at _ T8 R tb _ (by simp [le_bytes32_length, hC4]; omega) (by omega)
  have s6 : memset (((([1] ++ (le_bytes32 f ++ C4)) ++ p) ++ [0]) ++ (tb ++ R)) 5 0 4
      = ([1] ++ le_bytes32 f) ++ ([0, 0, 0, 0] ++ (p ++ ([0] ++ (tb ++ R)))) := by
    have e : ((([1] ++ (le_bytes32 f ++ C4)) ++ p) ++ [0]) ++ (tb ++ R)
        = ([1] ++ le_bytes32 f) ++ (C4 ++ (p ++ ([0] ++ (tb ++ R)))) := by
      simp only [List.append_assoc]
    rw [e]
    exact store_at _ C4 _ _ 5 (by simp [le_bytes32_length]) (by simp [hC4])
  rw [s1, s2, s3, s4, s5, s6]
  unfold raw_layout
  simp only [List.append_assoc]

theorem key_checksum_write (f : Nat) (p tb R ck : List Nat) (hck : ck.length = 4) :
    memcpy (raw_layout f [0, 0, 0, 0] p tb ++ R) 5 ck 4 = raw_layout f ck p tb ++ R := by
  unfold memcpy raw_layout
  have e : [1] ++ (le_bytes32 f ++ ([0, 0, 0, 0] ++ (p ++ ([0] ++ tb)))) ++ R
      = ([1] ++ le_bytes32 f) ++ ([0, 0, 0, 0] ++ ((p ++ ([0] ++ tb)) ++ R)) := by
    simp only [List.append_assoc]
  have e2 : [1] ++ (le_bytes32 f ++ (ck ++ (p ++ ([0] ++ tb)))) ++ R
      = ([1] ++ le_bytes32 f) ++ (ck ++ ((p ++ ([0] ++ tb)) ++ R)) := by
    simp only [List.append_assoc]
  rw [e, e2, List.take_of_length_le (by omega)]
  exact store_at _ _ _ ck 5 (by simp [le_bytes32_length]) (by simp [hck])

theorem raw_layout_length (f : Nat) (field p tb : List Nat) :
    (raw_layout f field p tb).length = 6 + field.length + p.length + tb.length := by
  unfold raw_layout
  simp [le_bytes32_length]
  omega

/-! ## Scrambling a prefix, and the hex loop -/

theorem getD_append_left (B C : List Nat) (j : Nat) (h : j < B.length) :
    (B ++ C).getD j 0 = B.getD j 0 := by
  simp [List.getD_eq_getElem?_getD, List.getElem?_append_left h]

theorem getD_append_right (B C : List Nat) (j : Nat) (h : B.length ≤ j) :
    (B ++ C).getD j 0 = C.getD (j - B.length) 0 := by
  simp [List.getD_eq_getElem?_getD, List.getElem?_append_right h]

theorem scramble_length (key : List Nat) (n : Nat) : (scramble key n).length = key.length :=
  scramble_loop_length n 0 key

theorem scramble_append (B C : List Nat) :
    scramble (B ++ C) B.length = scramble B B.length ++ C := by
  apply ext_getD
  · simp [scramble_length]
  · intro j _
    unfold scramble
    rw [scramble_loop_getD _ _ _ (by simp)]
    by_cases h : j < B.length
    · have h' : j < (scramble_loop B.length 0 B).length := by
        rw [scramble_loop_length]; exact h
      rw [if_pos ⟨Nat.zero_le _, by omega⟩, getD_append_left _ _ _ h,
        getD_append_left _ _ _ h', scramble_loop_getD _ _ _ (by simp),
        if_pos ⟨Nat.zero_le _, by omega⟩]
    · have h' : (scramble_loop B.length 0 B).length ≤ j := by
        rw [scramble_loop_length]; omega
      rw [if_neg (by omega), getD_append_right _ _ _ (by omega),
        getD_append_right _ _ _ h', scramble_loop_length]

theorem hex_digit_ne_zero (d : Nat) : hex_digit d ≠ 0 := by
  unfold hex_digit
  split <;> omega

theorem hex_loop_eq (KA KB KC OA OB : List Nat) (i : Nat) (hi : i = KA.length)
    (hOA : OA.length = i * 2) (hOB : 2 * KB.length ≤ OB.length) :
    hex_loop KB.length i (KA ++ (KB ++ KC)) (OA ++ OB) = OA ++ hex_fill KB OB := by
  induction KB generalizing KA OA OB i with
  | nil => rfl
  | cons b bs ih =>
    subst hi
    match OB, hOB with
    | x :: y :: OB2, hOB =>
      have hs : sprintf_02x (OA ++ (x :: y :: OB2)) (KA.length * 2) b
          = (OA ++ [hex_digit (b / 16 % 16), hex_digit (b % 16)]) ++ (OB2.set 0 0) := by
        unfold sprintf_02x
        have := store_bytes_append OA (x :: y :: OB2) 0
          [hex_digit (b / 16 % 16), hex_digit (b % 16), 0]
        rw [Nat.add_zero, hOA] at this
        rw [this]
        simp [store_bytes]
      have hk : KA ++ (b :: bs ++ KC) = (KA ++ [b]) ++ (bs ++ KC) := by simp
      rw [List.length_cons, hex_loop, List.cons_append, getD_append_mid, hs,
        ← List.cons_append, hk,
        ih (KA ++ [b]) _ _ (KA.length + 1) (by simp) (by simp; omega)
          (by simp at hOB ⊢; omega)]
      simp [hex_fill]

theorem cstr_nil_or_zero (out : List Nat) (h : out = [] ∨ ∃ T, out = 0 :: T) : cstr out = [] := by
  rcases h with rfl | ⟨T, rfl⟩ <;> simp [cstr]

theorem set_zero_nil_or_zero (out : List Nat) :
    out.set 0 0 = [] ∨ ∃ T, out.set 0 0 = 0 :: T := by
  cases out with
  | nil => exact Or.inl rfl
  | cons x T => exact Or.inr ⟨T, rfl⟩

theorem cstr_hex_fill (KB out : List Nat) (h : out = [] ∨ ∃ T, out = 0 :: T) :
    cstr (hex_fill KB out) = hex_text KB := by
  induction KB generalizing out with
  | nil => exact cstr_nil_or_zero out h
  | cons b bs ih =>
    have := ih ((out.drop 2).set 0 0) (set_zero_nil_or_zero _)
    unfold cstr at this ⊢
    simp only [hex_fill, hex_text, List.takeWhile_cons, bne_iff_ne, ne_eq, hex_digit_ne_zero,
      not_false_eq_true, decide_True, if_true, this]

theorem cstr_hex_fill_cons (b : Nat) (bs out : List Nat) :
    cstr (hex_fill (b :: bs) out) = hex_text (b :: bs) := by
  have := cstr_hex_fill bs ((out.drop 2).set 0 0) (set_zero_nil_or_zero _)
  unfold cstr at this ⊢
  simp only [hex_fill, hex_text, List.takeWhile_cons, bne_iff_ne, ne_eq, hex_digit_ne_zero,
    not_false_eq_true, decide_True, if_true, this]

theorem cstr_append_zeros (p : List Nat) (k : Nat) (hp : ∀ b ∈ p, b ≠ 0) :
    cstr (p ++ List.replicate k 0) = p := by
  unfold cstr
  induction p with
  | nil => cases k <;> simp [List.replicate_succ]
  | cons a p ih =>
    have ha : a ≠ 0 := hp a (List.mem_cons_self _ _)
    simp only [List.cons_append, List.takeWhile_cons, bne_iff_ne, ne_eq, ha, not_false_eq_true,
      decide_True, if_true, ih (fun b hb => hp b (List.mem_cons_of_mem _ hb))]

/-! ## `main` in closed form -/

theorem name_stage (name : List Nat) (h2 : name.length ≤ 108) :
    pad_name (name ++ List.replicate (109 - name.length) 0) (strlen name)
    = (padded_name name ++ List.replicate (109 - (padded_name name).length) 0,
        (padded_name name).length) := by
  unfold pad_name strlen
  by_cases h : name.length < 5
  · rw [if_pos h, name_buffer_pad name h, padded_name_length]
    have : max name.length 5 = 5 := by omega
    rw [this]
  · rw [if_neg h, padded_name_of_le name (by omega)]

theorem padded_name_valid (name : List Nat) (hv : valid_name name) :
    ∀ b ∈ padded_name name, 0 < b ∧ b < 256 := by
  intro b hb
  unfold padded_name at hb
  rcases List.mem_append.mp hb with h | h
  · exact hv b h
  · have := List.eq_of_mem_replicate h
    omega

theorem I32.eq_zero_iff (a : I32) : a = 0 ↔ a.val = 0 := by
  constructor
  · intro h; rw [h]; decide
  · intro h
    cases a with
    | mk v =>
      simp only at h
      subst h
      decide

theorem guard_iff (N : List Nat) (hN : ∀ j, N.getD j 0 < 256) :
    (I32.ofChar (N.getD 2 0) - I32.ofChar (N.getD 3 0)) + 1 = 0 ↔ zero_divisor N := by
  have r : ∀ j, Rep 7 (I32.ofChar (N.getD j 0)) (signed8 (N.getD j 0)) := by
    intro j
    have := Rep.ofChar (N.getD j 0)
    rwa [Nat.mod_eq_of_lt (hN j)] at this
  have := (Rep.add (Rep.sub (r 2) (r 3) (by decide)) Rep.lit1 (by decide)).1
  rw [I32.eq_zero_iff, this]
  rfl

theorem calc_name_check_some (mem : List Nat) (trailer : Nat) (N : List Nat)
    (hmem : trailer + 8 ≤ mem.length) (hN : ∀ j, N.getD j 0 < 256) (hz : ¬ zero_divisor N) :
    calc_name_check mem trailer N = some (store_bytes mem trailer (trailer_bytes N))
      ∧ (trailer_bytes N).length = 8 := by
  have r : ∀ j, Rep 7 (I32.ofChar (N.getD j 0)) (signed8 (N.getD j 0)) := by
    intro j
    have := Rep.ofChar (N.getD j 0)
    rwa [Nat.mod_eq_of_lt (hN j)] at this
  obtain ⟨q, hq, _⟩ := Rep.div (Rep.mul (r 0) (r 1) (by decide))
    (Rep.add (Rep.sub (r 2) (r 3) (by decide)) Rep.lit1 (by decide)) hz (by decide)
  have ht : trailer_bytes N = check_bytes (I32.ofChar (N.getD 0 0)) (I32.ofChar (N.getD 1 0))
      (I32.ofChar (N.getD 2 0)) (I32.ofChar (N.getD 3 0)) (I32.ofChar (N.getD 4 0)) q := by
    unfold trailer_bytes
    rw [hq]
  rw [ht]
  exact ⟨calc_name_check_eq mem trailer N q hmem hq, rfl⟩

theorem trailer_bytes_append (p Z : List Nat) (hp : 5 ≤ p.length) :
    trailer_bytes (p ++ Z) = trailer_bytes p := by
  unfold trailer_bytes
  rw [getD_append_left p Z 0 (by omega), getD_append_left p Z 1 (by omega),
    getD_append_left p Z 2 (by omega), getD_append_left p Z 3 (by omega),
    getD_append_left p Z 4 (by omega)]

theorem zero_divisor_append (p Z : List Nat) (hp : 5 ≤ p.length) :
    zero_divisor (p ++ Z) ↔ zero_divisor p := by
  unfold zero_divisor
  rw [getD_append_left p Z 2 (by omega), getD_append_left p Z 3 (by omega)]

theorem getD_name_buffer_lt (p : List Nat) (k : Nat) (hp : ∀ b ∈ p, 0 < b ∧ b < 256) (j : Nat) :
    (p ++ List.replicate k 0).getD j 0 < 256 := by
  apply getD_lt_256
  intro b hb
  rcases List.mem_append.mp hb with h | h
  · exact (hp b h).2
  · have := List.eq_of_mem_replicate h
    omega

theorem main_tail (u : Uninit) (f : Nat) (p : List Nat) (hp5 : 5 ≤ p.length)
    (hp108 : p.length ≤ 108) (hpv : ∀ b ∈ p, 0 < b ∧ b < 256) (hz : ¬ zero_divisor p) :
    (match calc_name_check
        ((memcpy (memcpy ((List.map u.key (List.range (9 + MAXLEN + 1 + 8))).set 0 1) 1
          (le_bytes32 f) 4) 9 (p ++ List.replicate (109 - p.length) 0) p.length).set
          (9 + p.length) 0)
        (9 + p.length + 1) (p ++ List.replicate (109 - p.length) 0) with
      | none => Except.error Error.DivideTrap
      | some key =>
        Except.ok
          { name := cstr (p ++ List.replicate (109 - p.length) 0)
            features := f
            checksum := calc_checksum (memset key 5 0 4) (9 + p.length + 1 + 8)
            key_len := 9 + p.length + 1 + 8
            raw := List.take (9 + p.length + 1 + 8)
              (memcpy (memset key 5 0 4) 5
                (le_bytes32 (toU32 (calc_checksum (memset key 5 0 4) (9 + p.length + 1 + 8)).val))
                4)
            key := List.take (9 + p.length + 1 + 8)
              (scramble (memcpy (memset key 5 0 4) 5
                (le_bytes32 (toU32 (calc_checksum (memset key 5 0 4) (9 + p.length + 1 + 8)).val))
                4) (9 + p.length + 1 + 8))
            out_key_text := cstr (hex_loop (9 + p.length + 1 + 8) 0
              (scramble (memcpy (memset key 5 0 4) 5
                (le_bytes32 (toU32 (calc_checksum (memset key 5 0 4) (9 + p.length + 1 + 8)).val))
                4) (9 + p.length + 1 + 8))
              (List.map u.out_key_text (List.range ((9 + MAXLEN + 1 + 8) * 2)))) })
    = (Except.ok (encode f p) : Except Error Output) := by
  have hJ : (List.map u.key (List.range (9 + MAXLEN + 1 + 8))).length = 126 := by
    simp [MAXLEN]
  have hz' : ¬ zero_divisor (p ++ List.replicate (109 - p.length) 0) := by
    rw [zero_divisor_append _ _ hp5]; exact hz
  obtain ⟨hc, ht8⟩ := calc_name_check_some
    ((memcpy (memcpy ((List.map u.key (List.range (9 + MAXLEN + 1 + 8))).set 0 1) 1
      (le_bytes32 f) 4) 9 (p ++ List.replicate (109 - p.length) 0) p.length).set
      (9 + p.length) 0)
    (9 + p.length + 1) (p ++ List.replicate (109 - p.length) 0)
    (by simp [memcpy, store_bytes_length, MAXLEN]; omega)
    (getD_name_buffer_lt p _ hpv) hz'
  rw [trailer_bytes_append _ _ hp5] at hc ht8
  obtain ⟨R, hR, hk⟩ := key_build _ hJ f p (List.replicate (109 - p.length) 0) (trailer_bytes p)
    hp108 ht8
  have hlen0 : (raw_layout f [0, 0, 0, 0] p (trailer_bytes p)).length = 9 + p.length + 1 + 8 := by
    rw [raw_layout_length, ht8]; simp; omega
  have ck_eq : calc_checksum (raw_layout f [0, 0, 0, 0] p (trailer_bytes p) ++ R)
      (9 + p.length + 1 + 8) = calc_checksum (raw_layout f [0, 0, 0, 0] p (trailer_bytes p))
        (raw_layout f [0, 0, 0, 0] p (trailer_bytes p)).length := by
    rw [← hlen0, calc_checksum_prefix, calc_checksum_eq_foldl]
  rw [hc]
  simp only [hk, ck_eq, encode]
  generalize calc_checksum (raw_layout f [0, 0, 0, 0] p (trailer_bytes p))
    (raw_layout f [0, 0, 0, 0] p (trailer_bytes p)).length = ck
  have hlen : (raw_layout f (le_bytes32 (toU32 ck.val)) p (trailer_bytes p)).length
      = 9 + p.length + 1 + 8 := by
    rw [raw_layout_length, ht8, le_bytes32_length]; omega
  rw [key_checksum_write f p (trailer_bytes p) R _ (le_bytes32_length _)]
  have take_eq : List.take (9 + p.length + 1 + 8)
      (raw_layout f (le_bytes32 (toU32 ck.val)) p (trailer_bytes p) ++ R)
      = raw_layout f (le_bytes32 (toU32 ck.val)) p (trailer_bytes p) := by
    rw [← hlen, List.take_left]
  have scr_eq : scramble (raw_layout f (le_bytes32 (toU32 ck.val)) p (trailer_bytes p) ++ R)
      (9 + p.length + 1 + 8)
      = scramble (raw_layout f (le_bytes32 (toU32 ck.val)) p (trailer_bytes p))
          (raw_layout f (le_bytes32 (toU32 ck.val)) p (trailer_bytes p)).length ++ R := by
    rw [← hlen, scramble_append]
  have hslen : (scramble (raw_layout f (le_bytes32 (toU32 ck.val)) p (trailer_bytes p))
      (raw_layout f (le_bytes32 (toU32 ck.val)) p (trailer_bytes p)).length).length
      = 9 + p.length + 1 + 8 := by
    rw [scramble_length, hlen]
  rw [scr_eq, take_eq]
  generalize scramble (raw_layout f (le_bytes32 (toU32 ck.val)) p (trailer_bytes p))
    (raw_layout f (le_bytes32 (toU32 ck.val)) p (trailer_bytes p)).length = S at hslen ⊢
  have take_scr : List.take (9 + p.length + 1 + 8) (S ++ R) = S := by
    rw [← hslen, List.take_left]
  have hex_eq : cstr (hex_loop (9 + p.length + 1 + 8) 0 (S ++ R)
      (List.map u.out_key_text (List.range ((9 + MAXLEN + 1 + 8) * 2)))) = hex_text S := by
    have h := hex_loop_eq [] S R [] (List.map u.out_key_text
      (List.range ((9 + MAXLEN + 1 + 8) * 2))) 0 rfl rfl (by simp [MAXLEN, hslen]; omega)
    rw [hslen] at h
    simp only [List.nil_append] at h
    rw [h]
    cases S with
    | nil => simp at hslen
    | cons b bs => exact cstr_hex_fill_cons b bs _
  have name_eq : cstr (p ++ List.replicate (109 - p.length) 0) = p :=
    cstr_append_zeros p _ (fun b hb => by have := (hpv b hb).1; omega)
  rw [take_scr, hex_eq, name_eq]

theorem main_eq (u : Uninit) (f : Nat) (name : List Nat)
    (hv : valid_name name) (h1 : 1 ≤ name.length) (h2 : name.length ≤ 108) :
    main u f (some name) = if zero_divisor (padded_name name) then Except.error Error.InvalidName
      else Except.ok (encode f (padded_name name)) := by
  have hle : ¬ strlen name > MAXLEN := by unfold strlen MAXLEN; omega
  have hpl := padded_name_length name
  have hpv := padded_name_valid name hv
  have h0 : ¬ (name ++ List.replicate (109 - name.length) 0).getD 0 0 = 0 := by
    rw [getD_append_left _ _ _ (by omega), List.getD_eq_getElem _ _ (by omega)]
    have := (hv _ (List.getElem_mem (by omega : 0 < name.length))).1
    omega
  simp only [main, hle, if_false, bind, Except.bind, name_buffer_copy name h2, name_stage name h2,
    h0]
  rw [if_congr (guard_iff _ (getD_name_buffer_lt _ _ hpv)) rfl rfl,
    if_congr (zero_divisor_append _ _ (by omega)) rfl rfl]
  by_cases hz : zero_divisor (padded_name name)
  · rw [if_pos hz, if_pos hz]
  · rw [if_neg hz, if_neg hz]
    exact main_tail u f (padded_name name) (by omega) (by omega) hpv hz

/-! ## Rejections -/

theorem main_none (u : Uninit) (f : Nat) : main u f none = Except.error Error.EmptyName := by
  have h : (List.replicate (MAXLEN + 1) 0).getD 0 0 = 0 := by decide
  simp only [main, bind, Except.bind, h, if_true]

theorem main_empty (u : Uninit) (f : Nat) :
    main u f (some []) = Except.error Error.EmptyName := by
  have hle : ¬ strlen ([] : List Nat) > MAXLEN := by decide
  have h : (strncpy ((List.replicate (MAXLEN + 1) 0).set MAXLEN 0) [] MAXLEN).getD 0 0 = 0 := by
    rw [name_buffer_copy [] (by simp)]
    decide
  simp only [main, bind, Except.bind, hle, if_false, h, if_true]

theorem main_too_long (u : Uninit) (f : Nat) (name : List Nat) (h : 108 < name.length) :
    main u f (some name) = Except.error Error.NameTooLong := by
  have hgt : strlen name > MAXLEN := by unfold strlen MAXLEN; omega
  simp only [main, bind, Except.bind, hgt, if_true]

/-- C7: the empty name and a missing name are rejected with EmptyName, every name longer
than 108 bytes (for instance one of 109 bytes) with NameTooLong, whatever the FeatureMask,
and no key is produced; a name of exactly 108 bytes is not rejected as too long. -/
theorem length_rejection (u : Uninit) (f : Nat) :
    main u f (some []) = Except.error Error.EmptyName
    ∧ main u f none = Except.error Error.EmptyName
    ∧ (∀ name : List Nat, 108 < name.length →
        main u f (some name) = Except.error Error.NameTooLong)
    ∧ main u f (some (List.replicate 109 65)) = Except.error Error.NameTooLong
    ∧ (∀ name : List Nat, valid_name name → name.length = 108 →
        main u f (some name) ≠ Except.error Error.NameTooLong) := by
  refine ⟨main_empty u f, main_none u f, fun name h => main_too_long u f name h,
    main_too_long u f _ (by simp), ?_⟩
  intro name hv hlen
  rw [main_eq u f name hv (by omega) (by omega)]
  split <;> simp

/-- Instance of C7: a name of 108 letters `A` is not rejected as too long. -/
theorem length_rejection_witness :
    main sample_uninit 1 (some (List.replicate 108 65)) ≠ Except.error Error.NameTooLong :=
  (length_rejection sample_uninit 1).2.2.2.2 (List.replicate 108 65)
    (by intro b hb; have := List.eq_of_mem_replicate hb; omega) (by simp)

/-- C6: for a name of 1..108 non-NUL bytes the codec fails with InvalidName exactly when the
space-padded name has `p[2] - p[3] + 1 == 0` (signed bytes), and succeeds otherwise, whatever
the mask; so the divisions in `calc_name_check` never trap. -/
theorem invalid_name_iff (u : Uninit) (f : Nat) (name : List Nat)
    (hv : valid_name name) (h1 : 1 ≤ name.length) (h2 : name.length ≤ 108) :
    (main u f (some name) = Except.error Error.InvalidName ↔ zero_divisor (padded_name name))
    ∧ (¬ zero_divisor (padded_name name) → ∃ o, main u f (some name) = Except.ok o)
    ∧ main u f (some name) ≠ Except.error Error.DivideTrap := by
  rw [main_eq u f name hv h1 h2]
  by_cases hz : zero_divisor (padded_name name)
  · simp [hz]
  · simp [hz]

/-- Instance of C6: the name `ABCD` (padded with one space) has `'C' - 'D' + 1 == 0`. -/
theorem invalid_name_iff_witness :
    main sample_uninit 1 (some [65, 66, 67, 68]) = Except.error Error.InvalidName :=
  (invalid_name_iff sample_uninit 1 [65, 66, 67, 68] (by decide) (by decide) (by decide)).1.2
    (by decide)

/-! ## Properties of the closed form -/

theorem toNat_of_cast_eq {n : Nat} {x : Int} (h : ((n : Nat) : Int) = x) : n = x.toNat := by
  rw [← h]; rfl

theorem trailer_bytes_spec (p : List Nat) (hp : ∀ b ∈ p, b < 256) (hz : ¬ zero_divisor p) :
    trailer_bytes p = spec_trailer p := by
  have r : ∀ j, Rep 7 (I32.ofChar (p.getD j 0)) (signed8 (p.getD j 0)) := by
    intro j
    have := Rep.ofChar (p.getD j 0)
    rwa [mod_256_of_mem hp] at this
  obtain ⟨q, hq, rq⟩ := Rep.div (Rep.mul (r 0) (r 1) (by decide))
    (Rep.add (Rep.sub (r 2) (r 3) (by decide)) Rep.lit1 (by decide)) hz (by decide)
  unfold trailer_bytes spec_trailer
  rw [hq]
  simp only [check_bytes]
  rw [toNat_of_cast_eq (pack_nibbles_eq
      (Rep.xor (Rep.or (r 0) (r 1) (by decide))
        (Rep.add (Rep.or (r 2) (r 3) (by decide)) (r 4) (by decide)) (by decide)).1
      (Rep.xor (Rep.xor (Rep.xor (Rep.xor (r 0) (r 1) (by decide)) (r 2) (by decide)) (r 3)
        (by decide)) (r 4) (by decide)).1),
    toNat_of_cast_eq (pack_nibbles_eq (Rep.sub rq (r 4) (by decide)).1
      (Rep.mul rq (r 4) (by decide)).1),
    toNat_of_cast_eq (pack_nibbles_eq
      (Rep.xor (Rep.mul (Rep.add (r 2) (r 3) (by decide)) (Rep.sub (r 0) (r 1) (by decide))
        (by decide)) (Rep.not (r 4) (by decide)) (by decide)).1
      (Rep.xor (Rep.mul (Rep.sub (r 2) (r 3) (by decide)) (Rep.add (r 0) (r 1) (by decide))
        (by decide)) (r 4) (by decide)).1),
    toNat_of_cast_eq (pack_nibbles_eq
      (Rep.xor (Rep.add (Rep.xor (r 0) (r 1) (by decide)) (Rep.xor (r 2) (r 3) (by decide))
        (by decide)) (r 4) (by decide)).1
      (Rep.sub (Rep.sub (Rep.add (Rep.add (r 0) (r 1) (by decide)) (r 2) (by decide)) (r 3)
        (by decide)) (r 4) (by decide)).1)]
  rfl

theorem trailer_bytes_length (p : List Nat) (hp : ∀ b ∈ p, b < 256) (hz : ¬ zero_divisor p) :
    (trailer_bytes p).length = 8 := by
  rw [trailer_bytes_spec p hp hz]; rfl

theorem hex_text_length (l : List Nat) : (hex_text l).length = 2 * l.length := by
  induction l with
  | nil => rfl
  | cons b bs ih => simp only [hex_text, List.length_cons, ih]; omega

theorem encode_raw (f : Nat) (p : List Nat) :
    (encode f p).raw = raw_layout f (le_bytes32 (toU32 (encode f p).checksum.val)) p
      (trailer_bytes p) := by
  simp only [encode]

theorem encode_checksum (f : Nat) (p : List Nat) :
    (encode f p).checksum = calc_checksum (raw_layout f [0, 0, 0, 0] p (trailer_bytes p))
      (raw_layout f [0, 0, 0, 0] p (trailer_bytes p)).length := by
  simp only [encode]

theorem encode_key (f : Nat) (p : List Nat) :
    (encode f p).key = scramble (encode f p).raw (encode f p).raw.length := by
  simp only [encode]

theorem encode_text (f : Nat) (p : List Nat) :
    (encode f p).out_key_text = hex_text (encode f p).key := by
  simp only [encode]

theorem encode_key_len (f : Nat) (p : List Nat) : (encode f p).key_len = 9 + p.length + 1 + 8 := by
  simp only [encode]

theorem encode_name (f : Nat) (p : List Nat) : (encode f p).name = p := by
  simp only [encode]

theorem encode_features (f : Nat) (p : List Nat) : (encode f p).features = f := by
  simp only [encode]

theorem encode_raw_length (f : Nat) (p : List Nat) (hp : ∀ b ∈ p, b < 256)
    (hz : ¬ zero_divisor p) : (encode f p).raw.length = 9 + p.length + 1 + 8 := by
  rw [encode_raw, raw_layout_length, le_bytes32_length, trailer_bytes_length p hp hz]
  omega

theorem encode_key_length (f : Nat) (p : List Nat) (hp : ∀ b ∈ p, b < 256)
    (hz : ¬ zero_divisor p) : (encode f p).key.length = 9 + p.length + 1 + 8 := by
  rw [encode_key, scramble_length, encode_raw_length f p hp hz]

theorem padded_name_lt (name : List Nat) (hv : valid_name name) :
    ∀ b ∈ padded_name name, b < 256 :=
  fun b hb => (padded_name_valid name hv b hb).2

theorem main_ok (u : Uninit) (f : Nat) (name : List Nat)
    (hv : valid_name name) (h1 : 1 ≤ name.length) (h2 : name.length ≤ 108)
    (hz : ¬ zero_divisor (padded_name name)) :
    main u f (some name) = Except.ok (encode f (padded_name name)) := by
  rw [main_eq u f name hv h1 h2, if_neg hz]

/-- C10: for an accepted name the RawKeyBuffer and the ScrambledKey both have length
`9 + max(len(name), 5) + 1 + 8`, which lies between 23 and 126, and `scramble` never changes
the length of a buffer. -/
theorem length_law (u : Uninit) (f : Nat) (name : List Nat)
    (hv : valid_name name) (h1 : 1 ≤ name.length) (h2 : name.length ≤ 108)
    (hz : ¬ zero_divisor (padded_name name)) :
    (∃ o, main u f (some name) = Except.ok o
      ∧ o.raw.length = 9 + max name.length 5 + 1 + 8
      ∧ o.key.length = 9 + max name.length 5 + 1 + 8
      ∧ o.key_len = 9 + max name.length 5 + 1 + 8
      ∧ 23 ≤ o.key.length ∧ o.key.length ≤ 126)
    ∧ ∀ (key : List Nat) (length : Nat), (scramble key length).length = key.length := by
  refine ⟨⟨_, main_ok u f name hv h1 h2 hz, ?_, ?_, ?_, ?_, ?_⟩, scramble_length⟩
  · rw [encode_raw_length f _ (padded_name_lt name hv) hz, padded_name_length]
  · rw [encode_key_length f _ (padded_name_lt name hv) hz, padded_name_length]
  · rw [encode_key_len, padded_name_length]
  · rw [encode_key_length f _ (padded_name_lt name hv) hz, padded_name_length]; omega
  · rw [encode_key_length f _ (padded_name_lt name hv) hz, padded_name_length]; omega

/-- Instance of C10 for the name `ACAD` and mask 1. -/
theorem length_law_witness :
    ∃ o, main sample_uninit 1 (some [65, 67, 65, 68]) = Except.ok o
      ∧ o.raw.length = 9 + max 4 5 + 1 + 8
      ∧ o.key.length = 9 + max 4 5 + 1 + 8
      ∧ o.key_len = 9 + max 4 5 + 1 + 8
      ∧ 23 ≤ o.key.length ∧ o.key.length ≤ 126 :=
  (length_law sample_uninit 1 [65, 67, 65, 68] (by decide) (by decide) (by decide)
    (by decide)).1

/-! ## Reading the raw buffer -/

theorem getD_append_at (B C : List Nat) (j i : Nat) (h : j = B.length + i) :
    (B ++ C).getD j 0 = C.getD i 0 := by
  subst h
  rw [getD_append_right _ _ _ (by omega), Nat.add_sub_cancel_left]

theorem raw_getD_zero (f : Nat) (F p tb : List Nat) : (raw_layout f F p tb).getD 0 0 = 1 := rfl

theorem raw_getD_features (f : Nat) (F p tb : List Nat) (k : Nat) (hk : k < 4) :
    (raw_layout f F p tb).getD (1 + k) 0 = (le_bytes32 f).getD k 0 := by
  unfold raw_layout
  rw [getD_append_at [1] _ (1 + k) k (by simp), getD_append_left _ _ _ (by rw [le_bytes32_length]; exact hk)]

theorem raw_getD_field (f : Nat) (F p tb : List Nat) (k : Nat) (hk : k < F.length) :
    (raw_layout f F p tb).getD (5 + k) 0 = F.getD k 0 := by
  unfold raw_layout
  rw [getD_append_at _ _ _ (4 + k) (by simp; omega),
    getD_append_at _ _ _ k (by rw [le_bytes32_length]), getD_append_left _ _ _ hk]

theorem raw_getD_name (f : Nat) (F p tb : List Nat) (hF : F.length = 4) (k : Nat)
    (hk : k < p.length) : (raw_layout f F p tb).getD (9 + k) 0 = p.getD k 0 := by
  unfold raw_layout
  rw [getD_append_at _ _ _ (8 + k) (by simp; omega),
    getD_append_at _ _ _ (4 + k) (by rw [le_bytes32_length]; omega),
    getD_append_at _ _ _ k (by omega), getD_append_left _ _ _ hk]

theorem raw_getD_terminator (f : Nat) (F p tb : List Nat) (hF : F.length = 4) :
    (raw_layout f F p tb).getD (9 + p.length) 0 = 0 := by
  unfold raw_layout
  rw [getD_append_at _ _ _ (8 + p.length) (by simp; omega),
    getD_append_at _ _ _ (4 + p.length) (by rw [le_bytes32_length]; omega),
    getD_append_at _ _ _ p.length (by omega), getD_append_at p _ p.length 0 (by omega)]
  rfl

theorem raw_getD_trailer (f : Nat) (F p tb : List Nat) (hF : F.length = 4) (k : Nat) :
    (raw_layout f F p tb).getD (9 + p.length + 1 + k) 0 = tb.getD k 0 := by
  unfold raw_layout
  rw [getD_append_at _ _ _ (8 + p.length + 1 + k) (by simp; omega),
    getD_append_at _ _ _ (4 + p.length + 1 + k) (by rw [le_bytes32_length]; omega),
    getD_append_at _ _ _ (p.length + 1 + k) (by omega),
    getD_append_at _ _ _ (1 + k) (by omega), getD_append_at [0] _ (1 + k) k (by simp)]

theorem le_bytes32_getD (v k : Nat) (hk : k < 4) :
    (le_bytes32 v).getD k 0 = v / 256 ^ k % 256 := by
  have h : k = 0 ∨ k = 1 ∨ k = 2 ∨ k = 3 := by omega
  rcases h with rfl | rfl | rfl | rfl <;> simp [le_bytes32]

theorem le_read32_field (f v : Nat) (p tb : List Nat) :
    le_read32 (raw_layout f (le_bytes32 v) p tb) 5 = v % 4294967296 := by
  unfold le_read32
  have h0 := raw_getD_field f (le_bytes32 v) p tb 0 (by rw [le_bytes32_length]; omega)
  have h1 := raw_getD_field f (le_bytes32 v) p tb 1 (by rw [le_bytes32_length]; omega)
  have h2 := raw_getD_field f (le_bytes32 v) p tb 2 (by rw [le_bytes32_length]; omega)
  have h3 := raw_getD_field f (le_bytes32 v) p tb 3 (by rw [le_bytes32_length]; omega)
  simp only [Nat.add_zero, Nat.reduceAdd] at h0 h1 h2 h3 ⊢
  rw [h0, h1, h2, h3]
  simp only [le_bytes32, List.getD_cons_zero, List.getD_cons_succ]
  omega

theorem raw_layout_store (f : Nat) (F G p tb : List Nat) (h : G.length = F.length) :
    store_bytes (raw_layout f F p tb) 5 G = raw_layout f G p tb := by
  unfold raw_layout
  have e : ∀ X : List Nat, [1] ++ (le_bytes32 f ++ (X ++ (p ++ ([0] ++ tb))))
      = ([1] ++ le_bytes32 f) ++ (X ++ (p ++ ([0] ++ tb))) := by
    intro X; simp only [List.append_assoc]
  rw [e F, e G]
  exact store_at _ F _ G 5 (by simp [le_bytes32_length]) h

theorem pack_nibbles_lt (hi lo : I32) : pack_nibbles hi lo < 256 := by
  unfold pack_nibbles I32.toUChar
  omega

theorem trailer_bytes_lt (p : List Nat) : ∀ b ∈ trailer_bytes p, b < 256 := by
  intro b hb
  unfold trailer_bytes at hb
  split at hb
  · simp only [check_bytes, List.mem_cons, List.mem_singleton] at hb
    rcases hb with h | h | h | h | h | h | h | h | h
    · rw [h]; exact pack_nibbles_lt _ _
    · rw [h]; exact pack_nibbles_lt _ _
    · rw [h]; exact pack_nibbles_lt _ _
    · rw [h]; exact pack_nibbles_lt _ _
    all_goals first | omega | simp at h
  · simp at hb

theorem le_bytes32_lt (v : Nat) : ∀ b ∈ le_bytes32 v, b < 256 := by
  intro b hb
  simp only [le_bytes32, List.mem_cons, List.mem_singleton] at hb
  rcases hb with h | h | h | h | h
  all_goals first | omega | simp at h

theorem raw_layout_lt (f : Nat) (F p tb : List Nat) (hF : ∀ b ∈ F, b < 256)
    (hp : ∀ b ∈ p, b < 256) (htb : ∀ b ∈ tb, b < 256) :
    ∀ b ∈ raw_layout f F p tb, b < 256 := by
  intro b hb
  unfold raw_layout at hb
  simp only [List.mem_append, List.mem_singleton] at hb
  rcases hb with h | h | h | h | h | h
  · omega
  · exact le_bytes32_lt f b h
  · exact hF b h
  · exact hp b h
  · omega
  · exact htb b h

theorem encode_raw_lt (f : Nat) (p : List Nat) (hp : ∀ b ∈ p, b < 256) :
    ∀ b ∈ (encode f p).raw, b < 256 := by
  rw [encode_raw]
  exact raw_layout_lt f _ p _ (le_bytes32_lt _) hp (trailer_bytes_lt p)

theorem descramble_from_length (i : Nat) (l : List Nat) :
    (descramble_from i l).length = l.length := by
  induction l generalizing i with
  | nil => rfl
  | cons s ss ih => simp [descramble_from, ih]

theorem descramble_from_getD (i : Nat) (l : List Nat) (j : Nat) (hj : j < l.length) :
    (descramble_from i l).getD j 0 = descramble_byte (l.getD j 0) (i + j) := by
  induction l generalizing i j with
  | nil => simp at hj
  | cons s ss ih =>
    cases j with
    | zero => rfl
    | succ j =>
      have := ih (i + 1) j (by simpa using hj)
      simp only [descramble_from, List.getD_cons_succ] at this ⊢
      rw [this]
      congr 1
      omega

theorem descramble_scramble (raw : List Nat) (h : ∀ b ∈ raw, b < 256) :
    descramble (scramble raw raw.length) = raw := by
  apply ext_getD
  · unfold descramble; rw [descramble_from_length, scramble_length]
  · intro j hj
    unfold descramble at hj ⊢
    rw [descramble_from_length, scramble_length] at hj
    rw [descramble_from_getD _ _ _ (by rw [scramble_length]; exact hj), scramble_getD _ _ hj,
      Nat.zero_add]
    exact descramble_scramble_byte _ _ (getD_lt_256 h j)

/-! ## Claims about the key codec -/

theorem toU32_lt (x : Int) : toU32 x < 4294967296 := by
  unfold toU32
  omega

/-- C2: for an accepted name and any mask, let `R` be the descrambled ScrambledKey; the
little-endian 32-bit value in bytes 5..8 of `R` is `calc_checksum` of `R` with bytes 5..8
replaced by zero, taken over the whole buffer of `9 + nameLen + 1 + 8` bytes. -/
theorem checksum_embedded (u : Uninit) (f : Nat) (name : List Nat)
    (hv : valid_name name) (h1 : 1 ≤ name.length) (h2 : name.length ≤ 108)
    (hz : ¬ zero_divisor (padded_name name)) :
    ∃ o, main u f (some name) = Except.ok o
      ∧ (descramble o.key).length = 9 + (padded_name name).length + 1 + 8
      ∧ le_read32 (descramble o.key) 5
          = toU32 (calc_checksum (memset (descramble o.key) 5 0 4) (descramble o.key).length).val
      ∧ le_read32 (descramble o.key) 5 = toU32 o.checksum.val := by
  have hp := padded_name_lt name hv
  have hd : descramble (encode f (padded_name name)).key = (encode f (padded_name name)).raw := by
    rw [encode_key]
    exact descramble_scramble _ (encode_raw_lt f _ hp)
  have hl := encode_raw_length f _ hp hz
  have hz4 : memset (encode f (padded_name name)).raw 5 0 4
      = raw_layout f [0, 0, 0, 0] (padded_name name) (trailer_bytes (padded_name name)) := by
    rw [encode_raw]
    exact raw_layout_store f _ [0, 0, 0, 0] _ _ (by rw [le_bytes32_length]; rfl)
  have hl0 : (raw_layout f [0, 0, 0, 0] (padded_name name)
      (trailer_bytes (padded_name name))).length = 9 + (padded_name name).length + 1 + 8 := by
    rw [raw_layout_length, trailer_bytes_length _ hp hz]; simp; omega
  have hr : le_read32 (encode f (padded_name name)).raw 5
      = toU32 (encode f (padded_name name)).checksum.val := by
    rw [encode_raw, le_read32_field, Nat.mod_eq_of_lt (toU32_lt _)]
  refine ⟨_, main_ok u f name hv h1 h2 hz, ?_, ?_, ?_⟩
  · rw [hd, hl]
  · rw [hd, hz4, hl, ← hl0, ← encode_checksum, hr]
  · rw [hd, hr]

/-- Instance of C2 for the name `ACAD` and mask 1. -/
theorem checksum_embedded_witness :
    ∃ o, main sample_uninit 1 (some [65, 67, 65, 68]) = Except.ok o
      ∧ (descramble o.key).length = 9 + (padded_name [65, 67, 65, 68]).length + 1 + 8
      ∧ le_read32 (descramble o.key) 5
          = toU32 (calc_checksum (memset (descramble o.key) 5 0 4) (descramble o.key).length).val
      ∧ le_read32 (descramble o.key) 5 = toU32 o.checksum.val :=
  checksum_embedded sample_uninit 1 [65, 67, 65, 68] (by decide) (by decide) (by decide)
    (by decide)

/-- C3: for an accepted name with padded form `p` and mask `f`, the buffer handed to the
Scrambler, which is also the descrambled output, is laid out as: byte 0 = 0x01, bytes 1..4 =
`f` little-endian, bytes 9.. = `p`, then 0x00, then the four Name-Check bytes `b0..b3` of the
specification, then four zero bytes (bytes 5..8 hold the checksum). -/
theorem raw_buffer_layout (u : Uninit) (f : Nat) (name : List Nat)
    (hv : valid_name name) (h1 : 1 ≤ name.length) (h2 : name.length ≤ 108)
    (hz : ¬ zero_divisor (padded_name name)) :
    ∃ o, main u f (some name) = Except.ok o
      ∧ descramble o.key = o.raw
      ∧ o.raw = raw_layout f (le_bytes32 (toU32 o.checksum.val)) (padded_name name)
          (spec_trailer (padded_name name))
      ∧ o.raw.length = 9 + (padded_name name).length + 1 + 8
      ∧ o.raw.getD 0 0 = 1
      ∧ (∀ k, k < 4 → o.raw.getD (1 + k) 0 = f / 256 ^ k % 256)
      ∧ (∀ k, k < (padded_name name).length → o.raw.getD (9 + k) 0 = (padded_name name).getD k 0)
      ∧ o.raw.getD (9 + (padded_name name).length) 0 = 0
      ∧ (∀ k, k < 4 → o.raw.getD (9 + (padded_name name).length + 1 + k) 0
          = (spec_trailer (padded_name name)).getD k 0)
      ∧ (∀ k, k < 4 → o.raw.getD (9 + (padded_name name).length + 5 + k) 0 = 0) := by
  have hp := padded_name_lt name hv
  have hraw : (encode f (padded_name name)).raw
      = raw_layout f (le_bytes32 (toU32 (encode f (padded_name name)).checksum.val))
          (padded_name name) (spec_trailer (padded_name name)) := by
    rw [encode_raw, trailer_bytes_spec _ hp hz]
  refine ⟨_, main_ok u f name hv h1 h2 hz, ?_, hraw, encode_raw_length f _ hp hz, ?_, ?_, ?_,
    ?_, ?_, ?_⟩
  · rw [encode_key]
    exact descramble_scramble _ (encode_raw_lt f _ hp)
  · rw [hraw]; rfl
  · intro k hk
    rw [hraw, raw_getD_features _ _ _ _ k hk, le_bytes32_getD f k hk]
  · intro k hk
    rw [hraw, raw_getD_name _ _ _ _ (le_bytes32_length _) k hk]
  · rw [hraw, raw_getD_terminator _ _ _ _ (le_bytes32_length _)]
  · intro k _
    rw [hraw, raw_getD_trailer _ _ _ _ (le_bytes32_length _) k]
  · intro k hk
    have e : 9 + (padded_name name).length + 5 + k = 9 + (padded_name name).length + 1 + (4 + k) := by
      omega
    rw [hraw, e, raw_getD_trailer _ _ _ _ (le_bytes32_length _) (4 + k)]
    have h : k = 0 ∨ k = 1 ∨ k = 2 ∨ k = 3 := by omega
    rcases h with rfl | rfl | rfl | rfl <;> rfl

/-- Instance of C3 for the name `ACAD` and mask 1: the descrambled key is the raw buffer. -/
theorem raw_buffer_layout_witness :
    ∃ o, main sample_uninit 1 (some [65, 67, 65, 68]) = Except.ok o
      ∧ descramble o.key = o.raw
      ∧ o.raw = raw_layout 1 (le_bytes32 (toU32 o.checksum.val)) (padded_name [65, 67, 65, 68])
          (spec_trailer (padded_name [65, 67, 65, 68])) := by
  obtain ⟨o, h1, h2, h3, _⟩ := raw_buffer_layout sample_uninit 1 [65, 67, 65, 68] (by decide)
    (by decide) (by decide) (by decide)
  exact ⟨o, h1, h2, h3⟩

theorem spaces_not_zero_divisor (name : List Nat) (hs : ∀ b ∈ name, b = 32) :
    ¬ zero_divisor (padded_name name) := by
  have hall : ∀ b ∈ padded_name name, b = 32 := by
    intro b hb
    unfold padded_name at hb
    rcases List.mem_append.mp hb with h | h
    · exact hs b h
    · exact List.eq_of_mem_replicate h
  have hlen : 5 ≤ (padded_name name).length := by rw [padded_name_length]; omega
  have hg : ∀ j, j < 5 → (padded_name name).getD j 0 = 32 := by
    intro j hj
    rw [List.getD_eq_getElem _ _ (by omega)]
    exact hall _ (List.getElem_mem _)
  unfold zero_divisor
  rw [hg 2 (by decide), hg 3 (by decide)]
  decide

/-- C8, as the code has it: only a missing or empty name is rejected with EmptyName. The
name is not trimmed: a name of 1..108 non-NUL bytes is never rejected as empty, and a name
made of spaces only is padded like any other and encoded. -/
theorem empty_name_only (u : Uninit) (f : Nat) :
    main u f none = Except.error Error.EmptyName
    ∧ main u f (some []) = Except.error Error.EmptyName
    ∧ (∀ name : List Nat, valid_name name → 1 ≤ name.length → name.length ≤ 108 →
        main u f (some name) ≠ Except.error Error.EmptyName)
    ∧ (∀ name : List Nat, (∀ b ∈ name, b = 32) → 1 ≤ name.length → name.length ≤ 108 →
        main u f (some name) = Except.ok (encode f (padded_name name))) := by
  refine ⟨main_none u f, main_empty u f, ?_, ?_⟩
  · intro name hv h1 h2
    rw [main_eq u f name hv h1 h2]
    split <;> simp
  · intro name hs h1 h2
    exact main_ok u f name (fun b hb => by rw [hs b hb]; decide) h1 h2
      (spaces_not_zero_divisor name hs)

/-- Instance of the amended C8: three spaces are encoded as the five-space name. -/
theorem empty_name_only_witness :
    main sample_uninit 1 (some [32, 32, 32]) = Except.ok (encode 1 (padded_name [32, 32, 32])) :=
  (empty_name_only sample_uninit 1).2.2.2 [32, 32, 32] (by decide) (by decide) (by decide)

/-- Counterexample to C8 as stated: the name of one space is not rejected with EmptyName; a
key is produced for it. -/
theorem whitespace_name_accepted :
    main sample_uninit 1 (some [32]) ≠ Except.error Error.EmptyName
    ∧ main sample_uninit 1 (some [32]) = Except.ok (encode 1 [32, 32, 32, 32, 32]) := by
  have h : main sample_uninit 1 (some [32]) = Except.ok (encode 1 (padded_name [32])) :=
    main_ok sample_uninit 1 [32] (by decide) (by decide) (by decide) (by decide)
  have hp : padded_name [32] = [32, 32, 32, 32, 32] := by decide
  rw [hp] at h
  rw [h]
  exact ⟨by simp, rfl⟩

/-- Counterexample to C9 as stated: encoding `TEST` with FeatureMask 1 does not succeed; it
is rejected with InvalidName. -/
theorem test_name_rejected :
    main sample_uninit 1 (some [84, 69, 83, 84]) = Except.error Error.InvalidName := by
  rw [main_eq sample_uninit 1 [84, 69, 83, 84] (by decide) (by decide) (by decide),
    if_pos (by decide)]

/-- C9, as the code has it: `TEST` (padded `TEST `) with FeatureMask 1 is rejected with
InvalidName, since `'S' - 'T' + 1 == 0`; every accepted name of at most five bytes yields a
RawKeyBuffer and a ScrambledKey of 23 bytes and an OutputHex of 46 characters. -/
theorem short_name_example (u : Uninit) (f : Nat) :
    main u 1 (some [84, 69, 83, 84]) = Except.error Error.InvalidName
    ∧ padded_name [84, 69, 83, 84] = [84, 69, 83, 84, 32]
    ∧ (∀ name : List Nat, valid_name name → 1 ≤ name.length → name.length ≤ 5 →
        ¬ zero_divisor (padded_name name) →
        ∃ o, main u f (some name) = Except.ok o ∧ o.key_len = 23 ∧ o.raw.length = 23
          ∧ o.key.length = 23 ∧ o.out_key_text.length = 46) := by
  refine ⟨?_, by decide, ?_⟩
  · rw [main_eq u 1 [84, 69, 83, 84] (by decide) (by decide) (by decide), if_pos (by decide)]
  · intro name hv h1 h5 hz
    have hp := padded_name_lt name hv
    have hl : (padded_name name).length = 5 := by rw [padded_name_length]; omega
    refine ⟨_, main_ok u f name hv h1 (by omega) hz, ?_, ?_, ?_, ?_⟩
    · rw [encode_key_len, hl]
    · rw [encode_raw_length f _ hp hz, hl]
    · rw [encode_key_length f _ hp hz, hl]
    · rw [encode_text, hex_text_length, encode_key_length f _ hp hz, hl]

/-- Instance of the amended C9: the name `ACAD` with mask 1. -/
theorem short_name_example_witness :
    ∃ o, main sample_uninit 1 (some [65, 67, 65, 68]) = Except.ok o ∧ o.key_len = 23
      ∧ o.raw.length = 23 ∧ o.key.length = 23 ∧ o.out_key_text.length = 46 :=
  (short_name_example sample_uninit 1).2.2 [65, 67, 65, 68] (by decide) (by decide) (by decide)
    (by decide)

/-- C11: for a non-empty name of length `L ≤ 108` the padding step of `main` leaves the
name followed by `5 - L` spaces (length exactly 5) when `L < 5` and the name unchanged when
`L ≥ 5`; the effective length is `max(L, 5) ≥ 5`, and everything `main` does afterwards is a
function of this padded name. -/
theorem padding_law (u : Uninit) (f : Nat) (name : List Nat)
    (hv : valid_name name) (h1 : 1 ≤ name.length) (h2 : name.length ≤ 108) :
    pad_name (strncpy ((List.replicate (MAXLEN + 1) 0).set MAXLEN 0) name MAXLEN) (strlen name)
        = (padded_name name ++ List.replicate (109 - (padded_name name).length) 0,
            (padded_name name).length)
    ∧ (name.length < 5 → padded_name name = name ++ List.replicate (5 - name.length) 32
        ∧ (padded_name name).length = 5)
    ∧ (5 ≤ name.length → padded_name name = name)
    ∧ (padded_name name).length = max name.length 5
    ∧ 5 ≤ (padded_name name).length
    ∧ main u f (some name)
        = if zero_divisor (padded_name name) then Except.error Error.InvalidName
          else Except.ok (encode f (padded_name name)) := by
  refine ⟨?_, ?_, padded_name_of_le name, padded_name_length name, ?_, main_eq u f name hv h1 h2⟩
  · rw [name_buffer_copy name h2, name_stage name h2]
  · intro h
    exact ⟨rfl, by rw [padded_name_length]; omega⟩
  · rw [padded_name_length]; omega

/-- Instance of C11 for the two-byte name `AB`. -/
theorem padding_law_witness :
    pad_name (strncpy ((List.replicate (MAXLEN + 1) 0).set MAXLEN 0) [65, 66] MAXLEN)
        (strlen [65, 66])
      = (padded_name [65, 66] ++ List.replicate (109 - (padded_name [65, 66]).length) 0,
          (padded_name [65, 66]).length) :=
  (padding_law sample_uninit 1 [65, 66] (by decide) (by decide) (by decide)).1

theorem padded_name_idem (name : List Nat) : padded_name (padded_name name) = padded_name name :=
  padded_name_of_le _ (by rw [padded_name_length]; omega)

/-- C20: for a non-empty name shorter than 5 bytes the result of the codec (the key with its
checksum and hex text, or the InvalidName rejection) is the same as for the name followed by
`5 - len` spaces; the two names differ, so the encoder is not injective on names as
supplied. -/
theorem short_name_collision (u : Uninit) (f : Nat) (name : List Nat)
    (hv : valid_name name) (h1 : 1 ≤ name.length) (h5 : name.length < 5) :
    main u f (some name) = main u f (some (name ++ List.replicate (5 - name.length) 32))
    ∧ name ≠ name ++ List.replicate (5 - name.length) 32 := by
  constructor
  · have hv' : valid_name (padded_name name) := padded_name_valid name hv
    have hl := padded_name_length name
    have e : name ++ List.replicate (5 - name.length) 32 = padded_name name := rfl
    rw [e, main_eq u f name hv h1 (by omega),
      main_eq u f (padded_name name) hv' (by omega) (by omega), padded_name_idem]
  · intro h
    have := congrArg List.length h
    simp at this
    omega

/-- Instance of C20: `A` and `A` followed by four spaces give the same result. -/
theorem short_name_collision_witness :
    main sample_uninit 1 (some [65]) = main sample_uninit 1 (some [65, 32, 32, 32, 32])
    ∧ [65] ≠ [65, 32, 32, 32, 32] :=
  short_name_collision sample_uninit 1 [65] (by decide) (by decide) (by decide)

/-! ## Feature report -/

theorem header_ne_tab_line (s t : String) (ht : t.data.head? = some '\t') :
    "License: 0x" ++ s ++ "\n" ≠ t := by
  intro h
  rw [← h] at ht
  simp [String.data_append] at ht

theorem mem_show_features (feat : Nat) (t : String) (ht : t.data.head? = some '\t') :
    t ∈ show_features feat ↔
      t ∈ SHOW_FEATURE_ALWAYS feat "Dehummer"
      ∨ t ∈ SHOW_FEATURE feat FEATURE_FM_PROC "FM Processing"
      ∨ t ∈ SHOW_FEATURE feat FEATURE_ADV_CLIPPER "Advanced Clipper"
      ∨ t ∈ SHOW_FEATURE feat FEATURE_ADVANCED_RDS "Advanced RDS"
      ∨ t ∈ SHOW_FEATURE feat FEATURE_FILE_POLLING "File Polling"
      ∨ t ∈ SHOW_FEATURE feat FEATURE_LOW_LAT_MON "Low Latency Monitoring"
      ∨ t ∈ SHOW_FEATURE feat FEATURE_DECLIPPER "Declipper & Natural Dynamics"
      ∨ t ∈ SHOW_FEATURE feat FEATURE_DECLIPPER_2H "Declipper (2 hour limit)"
      ∨ t ∈ SHOW_FEATURE_ONLY feat FEATURE_DECLIPPER FEATURE_NAT_DYN_ONLY "Natural Dynamics"
      ∨ t ∈ SHOW_FEATURE feat FEATURE_EVENT_FM_PROC "Event FM (3 days)"
      ∨ t ∈ SHOW_FEATURE feat FEATURE_COMP_CLIP "Composite Clipper"
      ∨ t ∈ SHOW_FEATURE feat FEATURE_COMP_CLIP_EVENT "Composite Clipper (Event FM)"
      ∨ t ∈ SHOW_FEATURE feat FEATURE_DELOSSIFIER "Delossifier"
      ∨ t ∈ SHOW_FEATURE_INVERSE feat FEATURE_FM_PROC FEATURE_UMPX "uMPX"
      ∨ t ∈ SHOW_FEATURE feat FEATURE_AGC34_AEQ "3/4 AGC & Auto EQ"
      ∨ t ∈ SHOW_FEATURE feat FEATURE_DYN_SPEEDS "Dynamic Speeds"
      ∨ t ∈ SHOW_FEATURE feat FEATURE_BIMP "BIMP"
      ∨ t ∈ SHOW_FEATURE feat FEATURE_UMPX_SFN_GPS "uMPX SFN GPS"
      ∨ t ∈ SHOW_FEATURE_INVERSE feat FEATURE_FM_PROC FEATURE_UMPXP "uMPX+"
      ∨ t ∈ SHOW_FEATURE feat FEATURE_PPM_WTRMRKNG "Nielsen PPM watermarking"
      ∨ t ∈ SHOW_FEATURE feat STE_PROC "ST-Enterprise" := by
  have h := header_ne_tab_line (hex8 feat) t ht
  unfold show_features
  simp only [List.mem_append, List.mem_singleton, or_assoc]
  constructor
  · rintro (h1 | h1)
    · exact absurd h1.symm h
    · exact h1
  · intro h1; exact Or.inr h1

theorem mem_SHOW_FEATURE (feat a : Nat) (b t : String) :
    t ∈ SHOW_FEATURE feat a b ↔ feat &&& a = a ∧ t = "\t* " ++ b ++ "\n" := by
  unfold SHOW_FEATURE
  split <;> simp [*]

theorem mem_SHOW_FEATURE_ALWAYS (feat : Nat) (a t : String) :
    t ∈ SHOW_FEATURE_ALWAYS feat a ↔ feat ≠ 0 ∧ t = "\t* " ++ a ++ "\n" := by
  unfold SHOW_FEATURE_ALWAYS
  split <;> simp [*]

theorem mem_SHOW_FEATURE_INVERSE (feat a b : Nat) (c t : String) :
    t ∈ SHOW_FEATURE_INVERSE feat a b c ↔ feat &&& a ≠ 0 ∧
      t = (if feat &&& b = b then "\t* " ++ c ++ " disabled\n" else "\t* " ++ c ++ "\n") := by
  unfold SHOW_FEATURE_INVERSE
  split <;> simp [*]

theorem mem_SHOW_FEATURE_ONLY (feat a b : Nat) (c t : String) :
    t ∈ SHOW_FEATURE_ONLY feat a b c ↔ feat &&& a = 0 ∧
      t = (if feat &&& b = b then "\t* " ++ c ++ " only\n" else "\t* " ++ c ++ "\n") := by
  unfold SHOW_FEATURE_ONLY
  split <;> simp [*]

theorem mem_umpx_line (feat : Nat) :
    "\t* uMPX\n" ∈ show_features feat ↔
      feat &&& FEATURE_FM_PROC ≠ 0 ∧ ¬ feat &&& FEATURE_UMPX = FEATURE_UMPX := by
  rw [mem_show_features feat _ (by decide)]
  simp only [mem_SHOW_FEATURE, mem_SHOW_FEATURE_ALWAYS, mem_SHOW_FEATURE_INVERSE,
    mem_SHOW_FEATURE_ONLY]
  constructor
  · intro h
    rcases h with h | h | h | h | h | h | h | h | h | h | h | h | h | h | h | h | h | h | h | h | h
    all_goals first
      | exact absurd h.2 (by decide)
      | (obtain ⟨h1, h2⟩ := h
         split at h2
         · exact absurd h2 (by decide)
         · first | exact absurd h2 (by decide) | exact ⟨h1, by assumption⟩)
  · rintro ⟨h1, h2⟩
    refine Or.inr (Or.inr (Or.inr (Or.inr (Or.inr (Or.inr (Or.inr (Or.inr (Or.inr (Or.inr
      (Or.inr (Or.inr (Or.inr (Or.inl ⟨h1, ?_⟩)))))))))))))
    rw [if_neg h2]
    decide

theorem mem_umpx_disabled_line (feat : Nat) :
    "\t* uMPX disabled\n" ∈ show_features feat ↔
      feat &&& FEATURE_FM_PROC ≠ 0 ∧ feat &&& FEATURE_UMPX = FEATURE_UMPX := by
  rw [mem_show_features feat _ (by decide)]
  simp only [mem_SHOW_FEATURE, mem_SHOW_FEATURE_ALWAYS, mem_SHOW_FEATURE_INVERSE,
    mem_SHOW_FEATURE_ONLY]
  constructor
  · intro h
    rcases h with h | h | h | h | h | h | h | h | h | h | h | h | h | h | h | h | h | h | h | h | h
    all_goals first
      | exact absurd h.2 (by decide)
      | (obtain ⟨h1, h2⟩ := h
         split at h2
         · first | exact absurd h2 (by decide) | exact ⟨h1, by assumption⟩
         · exact absurd h2 (by decide))
  · rintro ⟨h1, h2⟩
    refine Or.inr (Or.inr (Or.inr (Or.inr (Or.inr (Or.inr (Or.inr (Or.inr (Or.inr (Or.inr
      (Or.inr (Or.inr (Or.inr (Or.inl ⟨h1, ?_⟩)))))))))))))
    rw [if_pos h2]
    decide

theorem mem_dehummer_line (feat : Nat) :
    "\t* Dehummer\n" ∈ show_features feat ↔ feat ≠ 0 := by
  rw [mem_show_features feat _ (by decide)]
  simp only [mem_SHOW_FEATURE, mem_SHOW_FEATURE_ALWAYS, mem_SHOW_FEATURE_INVERSE,
    mem_SHOW_FEATURE_ONLY]
  constructor
  · intro h
    rcases h with h | h | h | h | h | h | h | h | h | h | h | h | h | h | h | h | h | h | h | h | h
    all_goals first
      | exact h.1
      | exact absurd h.2 (by decide)
      | (obtain ⟨h1, h2⟩ := h
         split at h2
         · exact absurd h2 (by decide)
         · exact absurd h2 (by decide))
  · intro h
    exact Or.inl ⟨h, by decide⟩

/-- Counterexample to C13 as stated: for FeatureMask 0 the line `Dehummer` is not emitted,
and the line `Natural Dynamics` is. -/
theorem report_empty_mask_no_base_line :
    "\t* Dehummer\n" ∉ show_features 0 ∧ "\t* Natural Dynamics\n" ∈ show_features 0 := by
  decide

/-- C13, as the code has it: for FeatureMask 0 `show_features` emits the `License:` header
and exactly one feature line, `Natural Dynamics`; the base-feature line `Dehummer` is emitted
exactly for the non-zero masks. -/
theorem report_empty_mask :
    show_features 0 = ["License: 0x00000000\n", "\t* Natural Dynamics\n"]
    ∧ ∀ feat : Nat, "\t* Dehummer\n" ∈ show_features feat ↔ feat ≠ 0 :=
  ⟨by decide, mem_dehummer_line⟩

/-- Counterexample to C14 as stated: for the mask 0x00080000 (the uMPX bit alone, no
FM-processing bit) the line `uMPX` is not emitted. -/
theorem report_umpx_bit_alone :
    0x00080000 &&& FEATURE_UMPX = FEATURE_UMPX ∧ 0x00080000 &&& FEATURE_FM_PROC = 0
    ∧ "\t* uMPX\n" ∉ show_features 0x00080000 := by
  decide

/-- C14, as the code has it: with no FM-processing bit set `show_features` emits neither
`uMPX` nor `uMPX disabled`, whatever bit 0x00080000 is; with some FM-processing bit set it
emits `uMPX disabled` when bit 0x00080000 is set and `uMPX` when it is clear. -/
theorem report_umpx (feat : Nat) :
    (feat &&& FEATURE_FM_PROC = 0 →
      "\t* uMPX\n" ∉ show_features feat ∧ "\t* uMPX disabled\n" ∉ show_features feat)
    ∧ ("\t* uMPX disabled\n" ∈ show_features feat ↔
        feat &&& FEATURE_FM_PROC ≠ 0 ∧ feat &&& FEATURE_UMPX = FEATURE_UMPX)
    ∧ ("\t* uMPX\n" ∈ show_features feat ↔
        feat &&& FEATURE_FM_PROC ≠ 0 ∧ ¬ feat &&& FEATURE_UMPX = FEATURE_UMPX) := by
  refine ⟨?_, mem_umpx_disabled_line feat, mem_umpx_line feat⟩
  intro h
  rw [mem_umpx_line, mem_umpx_disabled_line]
  exact ⟨fun h' => h'.1 h, fun h' => h'.1 h⟩

/-- Instance of the amended C14 at the mask 0x00080001. -/
theorem report_umpx_witness :
    "\t* uMPX disabled\n" ∈ show_features 0x00080001 :=
  (report_umpx 0x00080001).2.1.2 (by decide)

/-! ## Scrambler: mask table and position independence -/

set_option maxRecDepth 100000 in
theorem shift_exponent_table : ∀ k, k < 32 →
    I32.toCount (((1 : I32) <<< k) &&& 7)
      = (if k = 0 then 1 else if k = 1 then 2 else if k = 2 then 4 else 0)
    ∧ I32.toSize ((1 : I32) <<< I32.toCount (((1 : I32) <<< k) &&& 7))
      = (if k = 0 then 2 else if k = 1 then 4 else if k = 2 then 16 else 1) := by
  decide

theorem scramble_mask_low (i : Nat) :
    scramble_mask i % 256
      = ((-1 - (i : Int) - ((I32.toSize ((1 : I32) <<< I32.toCount (((1 : I32) <<< (i &&& 31))
          &&& 7)) : Nat) : Int)) % 256).toNat := by
  have h3 : I32.toSize (-1) = 18446744073709551615 := by decide
  have hk : i &&& 31 < 32 := Nat.lt_succ_of_le Nat.and_le_right
  have hs := (shift_table (i &&& 31) hk)
  unfold scramble_mask
  rw [h3, hs.1]
  have h2 := hs.2
  generalize (2 : Nat) ^ ((2 ^ (i &&& 31)) &&& 7) = s at h2 ⊢
  unfold size_sub
  omega

/-- C15: with `k = i & 31`, the exponent `(1 << k) & 7` of the code is 1, 2, 4 for
`k = 0, 1, 2` and 0 for every `k` in 3..31, so the shift term is 2, 4, 16 or 1, and the byte
XORed into `key[i]` is the low 8 bits of `-1 - i - shift`: `(253 - i) mod 256` for `k = 0`,
`(251 - i) mod 256` for `k = 1`, `(239 - i) mod 256` for `k = 2`, `(254 - i) mod 256`
otherwise. -/
theorem scramble_mask_table (i : Nat) :
    (∀ k, k < 32 →
      I32.toCount (((1 : I32) <<< k) &&& 7)
        = (if k = 0 then 1 else if k = 1 then 2 else if k = 2 then 4 else 0)
      ∧ I32.toSize ((1 : I32) <<< I32.toCount (((1 : I32) <<< k) &&& 7))
        = (if k = 0 then 2 else if k = 1 then 4 else if k = 2 then 16 else 1))
    ∧ i &&& 31 < 32
    ∧ (i &&& 31 = 0 → scramble_mask i % 256 = ((253 - (i : Int)) % 256).toNat)
    ∧ (i &&& 31 = 1 → scramble_mask i % 256 = ((251 - (i : Int)) % 256).toNat)
    ∧ (i &&& 31 = 2 → scramble_mask i % 256 = ((239 - (i : Int)) % 256).toNat)
    ∧ (3 ≤ i &&& 31 → scramble_mask i % 256 = ((254 - (i : Int)) % 256).toNat)
    ∧ (∀ b, b < 256 → (b ^^^ scramble_mask i) % 256 = b ^^^ (scramble_mask i % 256)) := by
  have hk : i &&& 31 < 32 := Nat.lt_succ_of_le Nat.and_le_right
  have ht := (shift_exponent_table (i &&& 31) hk).2
  have hm := scramble_mask_low i
  refine ⟨shift_exponent_table, hk, ?_, ?_, ?_, ?_, ?_⟩
  · intro h
    rw [h] at ht
    rw [hm, h, ht]
    simp only [if_true]
    omega
  · intro h
    rw [h] at ht
    rw [hm, h, ht]
    simp only [if_true, OfNat.ofNat_ne_zero, if_false, Nat.one_ne_zero]
    omega
  · intro h
    rw [h] at ht
    rw [hm, h, ht]
    simp only [if_true, OfNat.ofNat_ne_zero, if_false]
    have : ¬ (2 : Nat) = 1 := by decide
    simp only [this, if_false]
    omega
  · intro h
    rw [hm, ht]
    have h0 : ¬ i &&& 31 = 0 := by omega
    have h1 : ¬ i &&& 31 = 1 := by omega
    have h2 : ¬ i &&& 31 = 2 := by omega
    simp only [h0, h1, h2, if_false]
    omega
  · intro b hb
    rw [xor_mod_256, Nat.mod_eq_of_lt hb]

theorem getD_take (l : List Nat) (n j : Nat) (h : j < n) : (l.take n).getD j 0 = l.getD j 0 := by
  simp [List.getD_eq_getElem?_getD, List.getElem?_take, h]

theorem scramble_byte_spec (b i : Nat) :
    scramble_byte b i = reverse_bit_order_8 ((b ^^^ toU32 (spec_mask i)) % 256) := by
  unfold scramble_byte
  simp only
  rw [scramble_bits_eq_reverse _ (Nat.mod_lt _ (by norm_num)), xor_mod_256, scramble_mask_mod,
    xor_mod_256 b (toU32 (spec_mask i))]
  have : toU32 (spec_mask i) % 256 = (spec_mask i % 256).toNat := by
    unfold toU32
    omega
  rw [this]

set_option maxRecDepth 1000000 in
theorem scramble_bits_testBit : ∀ x, x < 256 → ∀ j, j < 8 →
    (scramble_bits 8 (x, 0)).2.testBit j = x.testBit (7 - j) := by
  decide

theorem scramble_take (buf : List Nat) (n : Nat) (hn : n ≤ buf.length) :
    scramble (buf.take n) n = (scramble buf buf.length).take n := by
  have hl : (buf.take n).length = n := by simp [hn]
  apply ext_getD
  · rw [scramble_length, hl, List.length_take, scramble_length]; omega
  · intro j hj
    rw [scramble_length, hl] at hj
    have h1 := scramble_getD (buf.take n) j (by omega)
    rw [hl] at h1
    rw [h1, getD_take _ _ _ hj, getD_take _ _ _ hj, scramble_getD buf j (by omega)]

/-- C16: byte `i` of `scramble(buf)` is `reverse_bit_order_8((buf[i] XOR mask(i)) & 0xFF)`,
a function of `buf[i]` and `i` alone; so two buffers that agree at `i` scramble to the same
byte at `i`, scrambling a prefix gives the prefix of the scrambled buffer, and the inner loop
of eight iterations is exactly the bit reversal (bit `j` of `out` is bit `7 - j` of `in`). -/
theorem scramble_position_independent :
    (∀ (buf : List Nat) (i : Nat), i < buf.length →
      (scramble buf buf.length).getD i 0
        = reverse_bit_order_8 ((buf.getD i 0 ^^^ toU32 (spec_mask i)) % 256))
    ∧ (∀ (buf buf' : List Nat) (i : Nat), i < buf.length → i < buf'.length →
        buf.getD i 0 = buf'.getD i 0 →
        (scramble buf buf.length).getD i 0 = (scramble buf' buf'.length).getD i 0)
    ∧ (∀ (buf : List Nat) (n : Nat), n ≤ buf.length →
        scramble (buf.take n) n = (scramble buf buf.length).take n)
    ∧ (∀ x, x < 256 → ∀ j, j < 8 →
        (scramble_bits 8 (x, 0)).2.testBit j = x.testBit (7 - j))
    ∧ (∀ x, x < 256 → (scramble_bits 8 (x, 0)).2 = reverse_bit_order_8 x) := by
  refine ⟨?_, ?_, scramble_take, scramble_bits_testBit, scramble_bits_eq_reverse⟩
  · intro buf i hi
    rw [scramble_getD buf i hi, scramble_byte_spec]
  · intro buf buf' i hi hi' h
    rw [scramble_getD buf i hi, scramble_getD buf' i hi', h]

/-- Instance of C16: the buffers `01 02 03` and `09 02` agree at index 1. -/
theorem scramble_position_independent_witness :
    (scramble [1, 2, 3] 3).getD 1 0 = (scramble [9, 2] 2).getD 1 0 :=
  scramble_position_independent.2.1 [1, 2, 3] [9, 2] 1 (by decide) (by decide) (by decide)

/-! ## Name check: dependence on the low nibbles -/

theorem nib_eq_toU32 (x : Int) : nib x = toU32 x % 16 := by
  unfold nib toU32
  omega

theorem nat_mod16_testBit (m i : Nat) : (m % 16).testBit i = (decide (i < 4) && m.testBit i) := by
  have h : (16 : Nat) = 2 ^ 4 := by norm_num
  rw [h, Nat.testBit_mod_two_pow]

theorem nat_xor_mod16 (a b : Nat) : (a ^^^ b) % 16 = (a % 16) ^^^ (b % 16) := by
  apply Nat.eq_of_testBit_eq
  intro j
  simp only [nat_mod16_testBit, Nat.testBit_xor]
  cases decide (j < 4) <;> simp

theorem nat_or_mod16 (a b : Nat) : (a ||| b) % 16 = (a % 16) ||| (b % 16) := by
  apply Nat.eq_of_testBit_eq
  intro j
  simp only [nat_mod16_testBit, Nat.testBit_or]
  cases decide (j < 4) <;> simp

theorem nib_xor (a b : Int) : nib (Int.xor a b) = nib a ^^^ nib b := by
  rw [nib_eq_toU32, nib_eq_toU32, nib_eq_toU32, ← toU32_xor, nat_xor_mod16]

theorem nib_lor (a b : Int) : nib (Int.lor a b) = nib a ||| nib b := by
  rw [nib_eq_toU32, nib_eq_toU32, nib_eq_toU32, ← toU32_lor, nat_or_mod16]

theorem nib_lnot (a : Int) : nib (Int.lnot a) = 15 - nib a := by
  rw [lnot_eq]
  unfold nib
  omega

theorem nib_add (a b : Int) : nib (a + b) = (nib a + nib b) % 16 := by
  unfold nib
  omega

theorem nib_sub (a b : Int) : nib (a - b) = (nib a + (16 - nib b)) % 16 := by
  unfold nib
  omega

theorem nib_mul (a b : Int) : nib (a * b) = (nib a * nib b) % 16 := by
  unfold nib
  have ha : 0 ≤ a % 16 := Int.emod_nonneg a (by norm_num)
  have hb : 0 ≤ b % 16 := Int.emod_nonneg b (by norm_num)
  have e1 : a % 16 = ((a % 16).toNat : Int) := (Int.toNat_of_nonneg ha).symm
  have e2 : b % 16 = ((b % 16).toNat : Int) := (Int.toNat_of_nonneg hb).symm
  have h : (a * b) % 16 = ((((a % 16).toNat * (b % 16).toNat) % 16 : Nat) : Int) := by
    rw [Int.mul_emod a b 16]
    push_cast
    rw [← e1, ← e2]
  rw [h, Int.toNat_natCast]

theorem land_15_eq_nib (x : Int) : Int.land x 0xF = (nib x : Int) := by
  obtain ⟨h0, h1⟩ := land_15_bounds x
  have h := toU32_land x 0xF
  have h15 : toU32 0xF = 15 := by decide
  rw [h15] at h
  have hm : toU32 x &&& 15 = toU32 x % 16 := Nat.and_pow_two_sub_one_eq_mod (toU32 x) 4
  rw [hm, ← nib_eq_toU32] at h
  rw [h]
  unfold toU32
  omega

theorem spec_pack_nib (hi lo : Int) :
    spec_pack hi lo = Int.lor ((nib hi : Int) * 2 ^ 4) (nib lo : Int) := by
  unfold spec_pack
  rw [land_15_eq_nib, land_15_eq_nib]

theorem nib_signed8 (b : Nat) : nib (signed8 b) = b % 16 := by
  unfold nib signed8
  split <;> omega

theorem spec_b0_nib (n0 n1 n2 n3 n4 m0 m1 m2 m3 m4 : Int)
    (h0 : nib n0 = nib m0) (h1 : nib n1 = nib m1) (h2 : nib n2 = nib m2)
    (h3 : nib n3 = nib m3) (h4 : nib n4 = nib m4) :
    spec_b0 n0 n1 n2 n3 n4 = spec_b0 m0 m1 m2 m3 m4 := by
  unfold spec_b0
  rw [spec_pack_nib, spec_pack_nib]
  simp only [nib_xor, nib_lor, nib_add, h0, h1, h2, h3, h4]

theorem spec_b2_nib (n0 n1 n2 n3 n4 m0 m1 m2 m3 m4 : Int)
    (h0 : nib n0 = nib m0) (h1 : nib n1 = nib m1) (h2 : nib n2 = nib m2)
    (h3 : nib n3 = nib m3) (h4 : nib n4 = nib m4) :
    spec_b2 n0 n1 n2 n3 n4 = spec_b2 m0 m1 m2 m3 m4 := by
  unfold spec_b2
  rw [spec_pack_nib, spec_pack_nib]
  simp only [nib_xor, nib_lnot, nib_mul, nib_add, nib_sub, h0, h1, h2, h3, h4]

theorem spec_b3_nib (n0 n1 n2 n3 n4 m0 m1 m2 m3 m4 : Int)
    (h0 : nib n0 = nib m0) (h1 : nib n1 = nib m1) (h2 : nib n2 = nib m2)
    (h3 : nib n3 = nib m3) (h4 : nib n4 = nib m4) :
    spec_b3 n0 n1 n2 n3 n4 = spec_b3 m0 m1 m2 m3 m4 := by
  unfold spec_b3
  rw [spec_pack_nib, spec_pack_nib]
  simp only [nib_xor, nib_add, nib_sub, h0, h1, h2, h3, h4]

theorem trailer_getD_after (mem : List Nat) (trailer : Nat) (p : List Nat)
    (hmem : trailer + 8 ≤ mem.length) (hp : ∀ b ∈ p, b < 256) (hz : ¬ zero_divisor p) :
    ∃ t, calc_name_check mem trailer p = some t ∧
      ∀ k, k < 8 → t.getD (trailer + k) 0 = (spec_trailer p).getD k 0 := by
  obtain ⟨hc, hl⟩ := calc_name_check_some mem trailer p hmem (getD_lt_256 hp) hz
  refine ⟨_, hc, ?_⟩
  intro k hk
  rw [getD_store_bytes, if_pos (by omega), Nat.add_sub_cancel_left, trailer_bytes_spec p hp hz]

/-- C19: if two five-byte name prefixes, both with a non-zero divisor, have the same low
nibbles (`n[j] & 0xF == m[j] & 0xF` for `j = 0..4`), then `calc_name_check` writes the same
`trailer[0]`, `trailer[2]` and `trailer[3]` for both; `trailer[1]`, the byte that uses the
division, can differ (as for `ACAD ` and `QCAD `). -/
theorem name_check_low_nibbles (mem : List Nat) (trailer : Nat) (n m : List Nat)
    (hmem : trailer + 8 ≤ mem.length) (hn : ∀ b ∈ n, b < 256) (hm : ∀ b ∈ m, b < 256)
    (hzn : ¬ zero_divisor n) (hzm : ¬ zero_divisor m)
    (hnib : ∀ j, j < 5 → n.getD j 0 % 16 = m.getD j 0 % 16) :
    (∃ tn tm, calc_name_check mem trailer n = some tn ∧ calc_name_check mem trailer m = some tm
      ∧ tn.getD (trailer + 0) 0 = tm.getD (trailer + 0) 0
      ∧ tn.getD (trailer + 2) 0 = tm.getD (trailer + 2) 0
      ∧ tn.getD (trailer + 3) 0 = tm.getD (trailer + 3) 0)
    ∧ (∀ j, j < 5 → [65, 67, 65, 68, 32].getD j 0 % 16 = [81, 67, 65, 68, 32].getD j 0 % 16)
    ∧ (calc_name_check (List.replicate 8 0) 0 [65, 67, 65, 68, 32]).map (fun t => t.getD 1 0)
        ≠ (calc_name_check (List.replicate 8 0) 0 [81, 67, 65, 68, 32]).map
            (fun t => t.getD 1 0) := by
  refine ⟨?_, by decide, by decide⟩
  obtain ⟨tn, hcn, hgn⟩ := trailer_getD_after mem trailer n hmem hn hzn
  obtain ⟨tm, hcm, hgm⟩ := trailer_getD_after mem trailer m hmem hm hzm
  have hs : ∀ j, j < 5 → nib (signed8 (n.getD j 0)) = nib (signed8 (m.getD j 0)) := by
    intro j hj
    rw [nib_signed8, nib_signed8, hnib j hj]
  refine ⟨tn, tm, hcn, hcm, ?_, ?_, ?_⟩
  · rw [hgn 0 (by decide), hgm 0 (by decide)]
    simp only [spec_trailer, List.getD_cons_zero]
    rw [spec_b0_nib _ _ _ _ _ _ _ _ _ _ (hs 0 (by decide)) (hs 1 (by decide)) (hs 2 (by decide))
      (hs 3 (by decide)) (hs 4 (by decide))]
  · rw [hgn 2 (by decide), hgm 2 (by decide)]
    simp only [spec_trailer, List.getD_cons_zero, List.getD_cons_succ]
    rw [spec_b2_nib _ _ _ _ _ _ _ _ _ _ (hs 0 (by decide)) (hs 1 (by decide)) (hs 2 (by decide))
      (hs 3 (by decide)) (hs 4 (by decide))]
  · rw [hgn 3 (by decide), hgm 3 (by decide)]
    simp only [spec_trailer, List.getD_cons_zero, List.getD_cons_succ]
    rw [spec_b3_nib _ _ _ _ _ _ _ _ _ _ (hs 0 (by decide)) (hs 1 (by decide)) (hs 2 (by decide))
      (hs 3 (by decide)) (hs 4 (by decide))]

/-- Instance of C19 for the prefixes `ACAD ` and `QCAD `. -/
theorem name_check_low_nibbles_witness :
    ∃ tn tm, calc_name_check (List.replicate 8 0) 0 [65, 67, 65, 68, 32] = some tn
      ∧ calc_name_check (List.replicate 8 0) 0 [81, 67, 65, 68, 32] = some tm
      ∧ tn.getD (0 + 0) 0 = tm.getD (0 + 0) 0
      ∧ tn.getD (0 + 2) 0 = tm.getD (0 + 2) 0
      ∧ tn.getD (0 + 3) 0 = tm.getD (0 + 3) 0 :=
  (name_check_low_nibbles (List.replicate 8 0) 0 [65, 67, 65, 68, 32] [81, 67, 65, 68, 32]
    (by decide) (by decide) (by decide) (by decide) (by decide) (by decide)).1

/-! ## Hex text -/

theorem hex_value_digit : ∀ d, d < 16 → hex_value (hex_digit d) = d := by
  decide

theorem hex_digit_table : ∀ d, d < 16 →
    hex_digit d = ("0123456789abcdef".toList.map Char.toNat).getD d 0 := by
  decide

theorem hex_decode_text (l : List Nat) (h : ∀ b ∈ l, b < 256) : hex_decode (hex_text l) = l := by
  induction l with
  | nil => rfl
  | cons b bs ih =>
    have hb : b < 256 := h b (List.mem_cons_self _ _)
    simp only [hex_text, hex_decode]
    rw [ih (fun x hx => h x (List.mem_cons_of_mem _ hx)),
      hex_value_digit _ (Nat.mod_lt _ (by norm_num)),
      hex_value_digit _ (Nat.mod_lt _ (by norm_num))]
    congr 1
    omega

theorem hex_text_getD (l : List Nat) (i : Nat) (hi : i < l.length) :
    (hex_text l).getD (2 * i) 0 = hex_digit (l.getD i 0 / 16 % 16)
    ∧ (hex_text l).getD (2 * i + 1) 0 = hex_digit (l.getD i 0 % 16) := by
  induction l generalizing i with
  | nil => simp at hi
  | cons b bs ih =>
    cases i with
    | zero => exact ⟨rfl, rfl⟩
    | succ i =>
      have := ih i (by simpa using hi)
      have e : 2 * (i + 1) = 2 * i + 1 + 1 := by omega
      rw [e]
      simp only [hex_text, List.getD_cons_succ]
      exact this

theorem scramble_lt (raw : List Nat) (h : ∀ b ∈ raw, b < 256) :
    ∀ b ∈ scramble raw raw.length, b < 256 := by
  intro b hb
  obtain ⟨j, hj, rfl⟩ := List.getElem_of_mem hb
  have hj' : j < raw.length := by rwa [scramble_length] at hj
  rw [← List.getD_eq_getElem _ 0 hj, scramble_getD raw j hj']
  exact scramble_byte_lt _ _ (getD_lt_256 h j)

theorem encode_key_lt (f : Nat) (p : List Nat) (hp : ∀ b ∈ p, b < 256) :
    ∀ b ∈ (encode f p).key, b < 256 := by
  rw [encode_key]
  exact scramble_lt _ (encode_raw_lt f p hp)

/-- C12: for an accepted name the OutputHex has exactly two characters per byte of the
ScrambledKey, characters `2i` and `2i + 1` being the lowercase hex digits of the high and of
the low nibble of byte `i`, with nothing in between, and hex decoding gives back the
ScrambledKey. -/
theorem hex_round_trip (u : Uninit) (f : Nat) (name : List Nat)
    (hv : valid_name name) (h1 : 1 ≤ name.length) (h2 : name.length ≤ 108)
    (hz : ¬ zero_divisor (padded_name name)) :
    (∃ o, main u f (some name) = Except.ok o
      ∧ o.out_key_text.length = 2 * o.key.length
      ∧ (∀ i, i < o.key.length →
          o.out_key_text.getD (2 * i) 0 = hex_digit (o.key.getD i 0 / 16)
          ∧ o.out_key_text.getD (2 * i + 1) 0 = hex_digit (o.key.getD i 0 % 16))
      ∧ hex_decode o.out_key_text = o.key)
    ∧ (∀ d, d < 16 → hex_digit d = ("0123456789abcdef".toList.map Char.toNat).getD d 0) := by
  have hp := padded_name_lt name hv
  have hk := encode_key_lt f _ hp
  refine ⟨⟨_, main_ok u f name hv h1 h2 hz, ?_, ?_, ?_⟩, hex_digit_table⟩
  · rw [encode_text, hex_text_length]
  · intro i hi
    have hb : (encode f (padded_name name)).key.getD i 0 < 256 := getD_lt_256 hk i
    have e : (encode f (padded_name name)).key.getD i 0 / 16 % 16
        = (encode f (padded_name name)).key.getD i 0 / 16 := by omega
    rw [encode_text]
    have := hex_text_getD _ i hi
    rw [e] at this
    exact this
  · rw [encode_text]
    exact hex_decode_text _ hk

/-- Instance of C12 for the name `ACAD` and mask 1. -/
theorem hex_round_trip_witness :
    ∃ o, main sample_uninit 1 (some [65, 67, 65, 68]) = Except.ok o
      ∧ o.out_key_text.length = 2 * o.key.length
      ∧ (∀ i, i < o.key.length →
          o.out_key_text.getD (2 * i) 0 = hex_digit (o.key.getD i 0 / 16)
          ∧ o.out_key_text.getD (2 * i + 1) 0 = hex_digit (o.key.getD i 0 % 16))
      ∧ hex_decode o.out_key_text = o.key :=
  (hex_round_trip sample_uninit 1 [65, 67, 65, 68] (by decide) (by decide) (by decide)
    (by decide)).1

/-! ## Injectivity of the encoding, and the bounds of the hex text buffer -/

theorem le_bytes32_inj (f g : Nat) (hf : f < 4294967296) (hg : g < 4294967296)
    (h : le_bytes32 f = le_bytes32 g) : f = g := by
  simp only [le_bytes32, List.cons.injEq, and_true] at h
  omega

theorem main_ok_inv (u : Uninit) (f : Nat) (name : List Nat)
    (hv : valid_name name) (h1 : 1 ≤ name.length) (h2 : name.length ≤ 108) (o : Output)
    (h : main u f (some name) = Except.ok o) :
    ¬ zero_divisor (padded_name name) ∧ o = encode f (padded_name name) := by
  rw [main_eq u f name hv h1 h2] at h
  by_cases hz : zero_divisor (padded_name name)
  · rw [if_pos hz] at h
    exact absurd h (by simp)
  · rw [if_neg hz] at h
    exact ⟨hz, (Except.ok.inj h).symm⟩

/-- C17: if the codec produces the same OutputHex for `(a, f)` and `(b, g)`, with `a`, `b`
accepted names of 1..108 non-NUL bytes and `f`, `g` 32-bit masks, then the space-padded
names of `a` and `b` are equal and `f = g`. -/
theorem encoding_injective (u u' : Uninit) (f g : Nat) (a b : List Nat) (o o' : Output)
    (hf : f < 4294967296) (hg : g < 4294967296)
    (hva : valid_name a) (ha1 : 1 ≤ a.length) (ha2 : a.length ≤ 108)
    (hvb : valid_name b) (hb1 : 1 ≤ b.length) (hb2 : b.length ≤ 108)
    (hoa : main u f (some a) = Except.ok o) (hob : main u' g (some b) = Except.ok o')
    (htext : o.out_key_text = o'.out_key_text) :
    padded_name a = padded_name b ∧ f = g := by
  obtain ⟨hza, rfl⟩ := main_ok_inv u f a hva ha1 ha2 o hoa
  obtain ⟨hzb, rfl⟩ := main_ok_inv u' g b hvb hb1 hb2 o' hob
  have hpa := padded_name_lt a hva
  have hpb := padded_name_lt b hvb
  have hkey : (encode f (padded_name a)).key = (encode g (padded_name b)).key := by
    have := congrArg hex_decode htext
    rwa [encode_text, encode_text, hex_decode_text _ (encode_key_lt f _ hpa),
      hex_decode_text _ (encode_key_lt g _ hpb)] at this
  have hraw : (encode f (padded_name a)).raw = (encode g (padded_name b)).raw := by
    have := congrArg descramble hkey
    rwa [encode_key, encode_key, descramble_scramble _ (encode_raw_lt f _ hpa),
      descramble_scramble _ (encode_raw_lt g _ hpb)] at this
  have hlen : (padded_name a).length = (padded_name b).length := by
    have := congrArg List.length hraw
    rw [encode_raw_length f _ hpa hza, encode_raw_length g _ hpb hzb] at this
    omega
  rw [encode_raw, encode_raw] at hraw
  unfold raw_layout at hraw
  have s1 := (List.append_inj hraw rfl).2
  have s2 := List.append_inj s1 (by rw [le_bytes32_length, le_bytes32_length])
  have s3 := (List.append_inj s2.2 (by rw [le_bytes32_length, le_bytes32_length])).2
  have s4 := (List.append_inj s3 hlen).1
  exact ⟨s4, le_bytes32_inj f g hf hg s2.1⟩

/-- Instance of C17: the names `A` and `A` followed by four spaces, both with mask 1, give
the same OutputHex and the same padded name. -/
theorem encoding_injective_witness :
    padded_name [65] = padded_name [65, 32, 32, 32, 32] ∧ (1 : Nat) = 1 :=
  encoding_injective sample_uninit sample_uninit 1 1 [65] [65, 32, 32, 32, 32]
    (encode 1 (padded_name [65])) (encode 1 (padded_name [65, 32, 32, 32, 32]))
    (by decide) (by decide) (by decide) (by decide) (by decide) (by decide) (by decide)
    (by decide)
    (main_ok sample_uninit 1 [65] (by decide) (by decide) (by decide) (by decide))
    (main_ok sample_uninit 1 [65, 32, 32, 32, 32] (by decide) (by decide) (by decide)
      (by decide))
    rfl

theorem hex_loop_writes_last (n i : Nat) : 2 * (i + n + 1) ∈ hex_loop_writes (n + 1) i := by
  induction n generalizing i with
  | zero => simp [hex_loop_writes, sprintf_02x_writes]; omega
  | succ n ih =>
    have := ih (i + 1)
    rw [hex_loop_writes]
    apply List.mem_append_right
    have e : 2 * (i + (n + 1) + 1) = 2 * (i + 1 + n + 1) := by omega
    rw [e]
    exact this

theorem hex_loop_writes_lt (n i j : Nat) (h : j ∈ hex_loop_writes n i) : j < 2 * (i + n) + 1 := by
  induction n generalizing i with
  | zero => simp [hex_loop_writes] at h
  | succ n ih =>
    rw [hex_loop_writes] at h
    rcases List.mem_append.mp h with h | h
    · simp [sprintf_02x_writes] at h
      omega
    · have := ih (i + 1) h
      omega

/-- C18 fails on the code for a name of 108 bytes: the key has 126 bytes, and the last
`sprintf` of the hex loop writes its terminating NUL at index 252 of `out_key_text`, whose
declared size is `(9 + 108 + 1 + 8) * 2 = 252`; names of at most 107 bytes stay in bounds. -/
theorem hex_nul_out_of_bounds :
    main sample_uninit 1 (some (List.replicate 108 65))
        = Except.ok (encode 1 (List.replicate 108 65))
    ∧ (encode 1 (List.replicate 108 65)).key_len = 126
    ∧ 252 ∈ hex_loop_writes 126 0
    ∧ ¬ 252 < (9 + MAXLEN + 1 + 8) * 2
    ∧ ¬ 2 * 126 + 1 ≤ (9 + MAXLEN + 1 + 8) * 2
    ∧ (∀ key_len j, key_len ≤ 125 → j ∈ hex_loop_writes key_len 0 →
        j < (9 + MAXLEN + 1 + 8) * 2) := by
  refine ⟨?_, ?_, hex_loop_writes_last 125 0, by decide, by decide, ?_⟩
  · have h := main_ok sample_uninit 1 (List.replicate 108 65)
      (by intro b hb; have := List.eq_of_mem_replicate hb; omega) (by simp) (by simp)
      (by decide)
    rwa [padded_name_of_le _ (by simp)] at h
  · rw [encode_key_len]; simp
  · intro key_len j hk hj
    have := hex_loop_writes_lt key_len 0 j hj
    simp only [MAXLEN]
    omega

end MakeRegkey
